import Mathlib

/-!
Verification of the MicroTorch reverse-mode automatic-differentiation engine
(`engine.py`, class `MicroTensor`).

The embedding models numpy arrays as a shape (list of dimensions) together
with the row-major list of rational entries, including numpy's broadcasting
rules and the failure of in-place accumulation (`+=`) when the right-hand
side does not broadcast to exactly the target's shape.  The computational
graph is a store of nodes indexed by natural numbers (object identity);
each node carries its `data`, `grad`, `_prev` parent list and its installed
`_backward` closure, represented as a `Rule` naming the operand/output ids
it captured.  Backward execution threads the store explicitly; a numpy
exception is modelled by `Except.error` carrying the state at the raise.
-/

set_option maxHeartbeats 1000000

namespace MicroTorch

/-- Model of a numpy ndarray: dimensions plus row-major rational entries. -/
structure NDArr where
  shape : List Nat
  val : List ℚ
deriving DecidableEq, Repr

namespace NDArr

/-- All multi-indices of a shape, in row-major (C) order. -/
def indices : List Nat → List (List Nat)
  | [] => [[]]
  | d :: ds => ((List.range d).map (fun i => (indices ds).map (fun t => i :: t))).flatten

/-- Row-major flat position of a multi-index within a shape. -/
def pos : List Nat → List Nat → Nat
  | _ :: ds, i :: rest => i * ds.prod + pos ds rest
  | _, _ => 0

/-- Entry of an array at a multi-index (junk 0 out of range). -/
def get (a : NDArr) (idx : List Nat) : ℚ := a.val.getD (pos a.shape idx) 0

/-- Build an array of a given shape from an entry function. -/
def make (s : List Nat) (f : List Nat → ℚ) : NDArr := ⟨s, (indices s).map f⟩

/-- Combine two dimensions under numpy's broadcasting rule. -/
def bdim (a b : Nat) : Option Nat :=
  if a = b then some a else if a = 1 then some b else if b = 1 then some a else none

/-- Broadcast two shapes given with trailing dimension first. -/
def bshapeRev : List Nat → List Nat → Option (List Nat)
  | [], t => some t
  | s, [] => some s
  | a :: s, b :: t =>
    match bdim a b, bshapeRev s t with
    | some d, some rest => some (d :: rest)
    | _, _ => none

/-- Broadcast shape of two shapes (right-aligned), none when incompatible. -/
def bshape (s t : List Nat) : Option (List Nat) :=
  (bshapeRev s.reverse t.reverse).map List.reverse

/-- Read an array at a multi-index of a broadcast result: right-align the
index, and wrap (mod) each coordinate so that size-1 dimensions repeat. -/
def bget (a : NDArr) (idx : List Nat) : ℚ :=
  a.get (List.zipWith (fun i d => i % d) (idx.drop (idx.length - a.shape.length)) a.shape)

/-- Elementwise binary operation with numpy broadcasting. -/
def ewise (f : ℚ → ℚ → ℚ) (a b : NDArr) : Option NDArr :=
  (bshape a.shape b.shape).map (fun s => make s (fun idx => f (bget a idx) (bget b idx)))

/-- np.add (also the `+` operator on arrays). -/
def npAdd : NDArr → NDArr → Option NDArr := ewise (· + ·)

/-- np.multiply (also the `*` operator on arrays). -/
def npMul : NDArr → NDArr → Option NDArr := ewise (· * ·)

/-- In-place accumulation `a += b`: numpy requires the broadcast result
shape to coincide with the target's shape, else it raises. -/
def iadd (a b : NDArr) : Option NDArr :=
  match bshape a.shape b.shape with
  | some s => if s = a.shape then npAdd a b else none
  | none => none

/-- Map a scalar function over every entry. -/
def smap (a : NDArr) (f : ℚ → ℚ) : NDArr := ⟨a.shape, a.val.map f⟩

/-- Division of an array by a scalar. -/
def divN (a : NDArr) (q : ℚ) : NDArr := smap a (fun x => x / q)

/-- np.sum(a, axis=1, keepdims=True): requires at least two axes. -/
def sumAx1 (a : NDArr) : Option NDArr :=
  match a.shape with
  | r :: c :: rest =>
    some (make (r :: 1 :: rest) (fun idx =>
      match idx with
      | i :: _ :: tl => ((List.range c).map (fun k => a.get (i :: k :: tl))).sum
      | _ => 0))
  | _ => none

/-- ndarray.T: reverse the axes. -/
def tT (a : NDArr) : NDArr := make a.shape.reverse (fun idx => a.get idx.reverse)

/-- np.dot restricted to two-dimensional operands (the only rank the
engine ever multiplies); incompatible inner dimensions fail. -/
def dot (a b : NDArr) : Option NDArr :=
  match a.shape, b.shape with
  | [m, k], [k2, n] =>
    if k2 = k then
      some (make [m, n] (fun idx =>
        ((List.range k).map (fun t => a.get [idx.getD 0 0, t] * b.get [t, idx.getD 1 0])).sum))
    else none
  | _, _ => none

/-- np.zeros of a shape. -/
def zeros (s : List Nat) : NDArr := make s (fun _ => 0)

/-- np.ones of a shape. -/
def ones (s : List Nat) : NDArr := make s (fun _ => 1)

/-- np.asarray of a raw Python scalar: a 0-dimensional array. -/
def scl (q : ℚ) : NDArr := ⟨[], [q]⟩

/-- Two-dimensional array r x c built from an entry function. -/
def arr2 (r c : Nat) (f : Nat → Nat → ℚ) : NDArr :=
  make [r, c] (fun idx => f (idx.getD 0 0) (idx.getD 1 0))

/-- Entry (i, j) of a two-dimensional array. -/
def get2 (a : NDArr) (i j : Nat) : ℚ := a.get [i, j]

end NDArr

/-- The `_backward` closure installed on a node, as data: which operation
rule it is, and the ids of the `self`/`other`/`out` objects it captured. -/
inductive Rule where
  | noop
  | addR (a b o : Nat)
  | matmulR (a b o : Nat)
  | mulR (a b o : Nat)
  | reluR (a o : Nat)
  | transR (a o : Nat)
deriving DecidableEq, Repr

/-- A MicroTensor object: forward data, gradient accumulator, recorded
parent ids (`_prev`) and installed backward closure. -/
structure Node where
  data : NDArr
  grad : NDArr
  prev : List Nat
  rule : Rule
deriving DecidableEq, Repr

instance : Inhabited Node := ⟨⟨⟨[], []⟩, ⟨[], []⟩, [], .noop⟩⟩

/-- The heap of MicroTensor objects (ids are list positions) together with
the class-wide `_trackGrad` flag. -/
structure Engine where
  nodes : List Node
  track : Bool
deriving DecidableEq, Repr

namespace Engine

/-- Dereference an object id. -/
def get (e : Engine) (i : Nat) : Node := e.nodes.getD i default

/-- Overwrite the grad buffer of one object. -/
def setGrad (e : Engine) (i : Nat) (g : NDArr) : Engine :=
  { e with nodes := e.nodes.set i { e.get i with grad := g } }

/-- The fresh interpreter state: no objects, `_trackGrad = True`. -/
def empty : Engine := ⟨[], true⟩

end Engine

/-- `MicroTensor.__init__`: store the data, allocate a zero grad of the
same shape, record the given children, install a no-op backward. -/
def mkTensor (d : NDArr) (children : List Nat) (e : Engine) : Nat × Engine :=
  (e.nodes.length,
   { e with nodes := e.nodes ++ [⟨d, NDArr.zeros d.shape, children, .noop⟩] })

/-- `__add__` on two existing nodes: forward `np.add`, record parents and
install the add backward only when tracking is active. -/
def addOp (a b : Nat) (e : Engine) : Option (Nat × Engine) :=
  match NDArr.npAdd (e.get a).data (e.get b).data with
  | none => none
  | some d =>
    let o := e.nodes.length
    some (o, { e with nodes := e.nodes ++
      [⟨d, NDArr.zeros d.shape, if e.track then [a, b] else [],
        if e.track then .addR a b o else .noop⟩] })

/-- `__matmul__`: forward `np.dot`. -/
def matmulOp (a b : Nat) (e : Engine) : Option (Nat × Engine) :=
  match NDArr.dot (e.get a).data (e.get b).data with
  | none => none
  | some d =>
    let o := e.nodes.length
    some (o, { e with nodes := e.nodes ++
      [⟨d, NDArr.zeros d.shape, if e.track then [a, b] else [],
        if e.track then .matmulR a b o else .noop⟩] })

/-- `__mul__`: forward `np.multiply`. -/
def mulOp (a b : Nat) (e : Engine) : Option (Nat × Engine) :=
  match NDArr.npMul (e.get a).data (e.get b).data with
  | none => none
  | some d =>
    let o := e.nodes.length
    some (o, { e with nodes := e.nodes ++
      [⟨d, NDArr.zeros d.shape, if e.track then [a, b] else [],
        if e.track then .mulR a b o else .noop⟩] })

/-- `relu`: copy the data and clamp negatives to zero. -/
def reluOp (a : Nat) (e : Engine) : Nat × Engine :=
  let d := NDArr.smap (e.get a).data (fun x => if x < 0 then 0 else x)
  let o := e.nodes.length
  (o, { e with nodes := e.nodes ++
    [⟨d, NDArr.zeros d.shape, if e.track then [a] else [],
      if e.track then .reluR a o else .noop⟩] })

/-- the `T` property: transposed copy of the data. -/
def transOp (a : Nat) (e : Engine) : Nat × Engine :=
  let d := NDArr.tT (e.get a).data
  let o := e.nodes.length
  (o, { e with nodes := e.nodes ++
    [⟨d, NDArr.zeros d.shape, if e.track then [a] else [],
      if e.track then .transR a o else .noop⟩] })

/-- `__neg__`: `self * -1`, where `-1` is coerced by `__mul__` into a fresh
0-dimensional leaf tensor. -/
def negOp (a : Nat) (e : Engine) : Option (Nat × Engine) :=
  let p := mkTensor (NDArr.scl (-1)) [] e
  mulOp a p.1 p.2

/-- `__sub__`: `self + (-other)`. -/
def subOp (a b : Nat) (e : Engine) : Option (Nat × Engine) :=
  match negOp b e with
  | none => none
  | some (nb, e1) => addOp a nb e1

/-- State extracted from a backward outcome (normal return or raise). -/
def outEngine : Except Engine Engine → Engine
  | .ok e => e
  | .error e => e

/-- Whether a backward outcome returned normally. -/
def isOkE : Except Engine Engine → Bool
  | .ok _ => true
  | .error _ => false

/-- Execute one stored `_backward` closure, mutating parent grads exactly
as the Python closures do (including the recomputation of `out.grad`-based
quantities on the second line, and the points at which numpy raises). -/
def runRule (e : Engine) : Rule → Except Engine Engine
  | .noop => .ok e
  | .addR a b o =>
    match NDArr.sumAx1 (e.get o).grad with
    | none => .error e
    | some s1 =>
      match NDArr.npAdd (e.get a).grad
          (NDArr.divN s1 (((e.get o).grad.shape.getD 1 0 : Nat) : ℚ)) with
      | none => .error e
      | some ga =>
        match NDArr.sumAx1 (((e.setGrad a ga).get o).grad) with
        | none => .error (e.setGrad a ga)
        | some s2 =>
          match NDArr.npAdd ((e.setGrad a ga).get b).grad
              (NDArr.divN s2 ((((e.setGrad a ga).get o).grad.shape.getD 1 0 : Nat) : ℚ)) with
          | none => .error (e.setGrad a ga)
          | some gb => .ok ((e.setGrad a ga).setGrad b gb)
  | .matmulR a b o =>
    match NDArr.dot (e.get o).grad (NDArr.tT (e.get b).data) with
    | none => .error e
    | some t1 =>
      match NDArr.iadd (e.get a).grad t1 with
      | none => .error e
      | some ga =>
        match NDArr.dot (NDArr.tT ((e.setGrad a ga).get a).data)
            ((e.setGrad a ga).get o).grad with
        | none => .error (e.setGrad a ga)
        | some t2 =>
          match NDArr.iadd ((e.setGrad a ga).get b).grad
              (NDArr.divN t2 ((((e.setGrad a ga).get a).data.shape.getD 0 0 : Nat) : ℚ)) with
          | none => .error (e.setGrad a ga)
          | some gb => .ok ((e.setGrad a ga).setGrad b gb)
  | .mulR a b o =>
    match NDArr.npMul (e.get b).data (e.get o).grad with
    | none => .error e
    | some t1 =>
      match NDArr.iadd (e.get a).grad t1 with
      | none => .error e
      | some ga =>
        match NDArr.npMul ((e.setGrad a ga).get a).data ((e.setGrad a ga).get o).grad with
        | none => .error (e.setGrad a ga)
        | some t2 =>
          match NDArr.iadd ((e.setGrad a ga).get b).grad t2 with
          | none => .error (e.setGrad a ga)
          | some gb => .ok ((e.setGrad a ga).setGrad b gb)
  | .reluR a o =>
    match NDArr.npMul (NDArr.smap (e.get o).data (fun x => if 0 < x then 1 else 0))
        (e.get o).grad with
    | none => .error e
    | some t1 =>
      match NDArr.iadd (e.get a).grad t1 with
      | none => .error e
      | some ga => .ok (e.setGrad a ga)
  | .transR a o =>
    match NDArr.iadd (e.get a).grad (NDArr.tT (e.get o).grad) with
    | none => .error e
    | some ga => .ok (e.setGrad a ga)

/-- The `for c in reversed(children): c._backward()` loop; the first numpy
exception aborts it, carrying the partially mutated state. -/
def runRules (e : Engine) : List Nat → Except Engine Engine
  | [] => .ok e
  | c :: rest =>
    match runRule e ((e.get c).rule) with
    | .ok e1 => runRules e1 rest
    | .error e1 => .error e1

/-- The `traverse` helper of `backward`: identity-deduplicated depth-first
post-order over `_prev` edges.  Recursion is paid for with fuel; on the
acyclic graphs the engine builds (parent ids below child ids) any fuel
above the root id computes the same list the Python recursion does. -/
def dfs (e : Engine) : Nat → List Nat → Nat → List Nat
  | 0, v, _ => v
  | fuel + 1, v, x =>
    if x ∈ v then v
    else ((e.get x).prev.foldl (dfs e fuel) v) ++ [x]

/-- The traversal sequence `children` computed by `backward`. -/
def topo (e : Engine) (r : Nat) : List Nat := dfs e e.nodes.length [] r

/-- `backward`: build the post-order, seed the root grad with ones of the
root's data shape, then run every recorded closure in reverse order. -/
def backward (r : Nat) (e : Engine) : Except Engine Engine :=
  runRules (e.setGrad r (NDArr.ones (e.get r).data.shape)) (topo e r).reverse

/-- The `track_grad` context manager: save the flag, override it, run the
body, and restore the saved value on both the normal and the raising exit
path (`try/finally`). -/
def track_grad (state : Bool) (body : Engine → Except Engine Engine) (e : Engine) :
    Except Engine Engine :=
  match body { e with track := state } with
  | .ok e2 => .ok { e2 with track := e.track }
  | .error e2 => .error { e2 with track := e.track }

/-- Every recorded parent edge points to an earlier-created object; true of
every graph the operations build, and what makes them acyclic. -/
def Wf (e : Engine) : Prop := ∀ x, ∀ p ∈ (e.get x).prev, p < x

/-- Bounded form of `Wf` used for decidability. -/
def WfB (e : Engine) : Prop :=
  ∀ x < e.nodes.length, ∀ p ∈ (e.get x).prev, p < x

/-- A stored closure is consistent with its node: it captured exactly the
node's recorded parents as operands and the node itself as `out`.  Every
closure the operations install is of this form. -/
def ruleOkB (pv : List Nat) (c : Nat) : Rule → Bool
  | .noop => true
  | .addR a b o => pv == [a, b] && o == c
  | .matmulR a b o => pv == [a, b] && o == c
  | .mulR a b o => pv == [a, b] && o == c
  | .reluR a o => pv == [a] && o == c
  | .transR a o => pv == [a] && o == c

/-- All closures in the store are consistent with their nodes. -/
def RuleWf (e : Engine) : Prop :=
  ∀ c < e.nodes.length, ruleOkB (e.get c).prev c (e.get c).rule = true

/-- Reachability from a node over recorded parent edges. -/
inductive Reach (e : Engine) : Nat → Nat → Prop
  | refl (x : Nat) : Reach e x x
  | step (x p y : Nat) : p ∈ (e.get x).prev → Reach e p y → Reach e x y

/-- The ids a closure writes gradients into. -/
def writes : Rule → List Nat
  | .noop => []
  | .addR a b _ => [a, b]
  | .matmulR a b _ => [a, b]
  | .mulR a b _ => [a, b]
  | .reluR a _ => [a]
  | .transR a _ => [a]

/-- Occurrence of `p` strictly before `x` in a list: some proper initial
segment already contains `p` but not yet `x`. -/
def before (l : List Nat) (p x : Nat) : Prop :=
  ∃ n, n ≤ l.length ∧ p ∈ l.take n ∧ x ∉ l.take n

/-- Parents-closed-and-ordered: every recorded parent of a listed node is
itself listed, strictly earlier. -/
def PB (e : Engine) (l : List Nat) : Prop :=
  ∀ x ∈ l, ∀ p ∈ (e.get x).prev, p ∈ l ∧ before l p x

/-- Apply a sequence of gradient overwrites to the store. -/
def applyUpds (e : Engine) (u : List (Nat × NDArr)) : Engine :=
  u.foldl (fun acc q => acc.setGrad q.1 q.2) e

/-- Engine holding two freshly created leaf tensors. -/
def leafE2 (dA dB : NDArr) : Engine :=
  (mkTensor dB [] (mkTensor dA [] Engine.empty).2).2

/-- Engine holding one freshly created leaf tensor. -/
def leafE1 (dA : NDArr) : Engine := (mkTensor dA [] Engine.empty).2

/-- A store in which node 2 is an add output with recorded parents 0 and 1,
all three r x c two-dimensional with arbitrary data and arbitrary
already-accumulated gradients. -/
def addRuleEnv (r c : Nat) (dA dB dO gA gB gO : Nat → Nat → ℚ) : Engine :=
  ⟨[⟨NDArr.arr2 r c dA, NDArr.arr2 r c gA, [], .noop⟩,
    ⟨NDArr.arr2 r c dB, NDArr.arr2 r c gB, [], .noop⟩,
    ⟨NDArr.arr2 r c dO, NDArr.arr2 r c gO, [0, 1], .addR 0 1 2⟩], true⟩

/-- A store in which node 2 is a matrix-product output (A of shape m x k,
B of shape k x n, output m x n) with arbitrary data and gradients. -/
def matmulRuleEnv (m k n : Nat) (dA dB dO gA gB gO : Nat → Nat → ℚ) : Engine :=
  ⟨[⟨NDArr.arr2 m k dA, NDArr.arr2 m k gA, [], .noop⟩,
    ⟨NDArr.arr2 k n dB, NDArr.arr2 k n gB, [], .noop⟩,
    ⟨NDArr.arr2 m n dO, NDArr.arr2 m n gO, [0, 1], .matmulR 0 1 2⟩], true⟩

/-- Leaf X (node 0) followed by Y = relu(X) (node 1). -/
def reluG (r c : Nat) (f : Nat → Nat → ℚ) : Engine :=
  (reluOp 0 (leafE1 (NDArr.arr2 r c f))).2

/-- Leaf X (node 0), X.T (node 1), X.T.T (node 2). -/
def transG (r c : Nat) (f : Nat → Nat → ℚ) : Engine :=
  (transOp 1 (transOp 0 (leafE1 (NDArr.arr2 r c f))).2).2

/-- Concrete matrix [[1,2],[3,4]]. -/
def cA : NDArr := ⟨[2, 2], [1, 2, 3, 4]⟩

/-- Concrete matrix [[5,6],[7,8]]. -/
def cB : NDArr := ⟨[2, 2], [5, 6, 7, 8]⟩

/-- Store holding leaves A = [[1,2],[3,4]] and B = [[5,6],[7,8]]. -/
def cBase : Engine := leafE2 cA cB

/-- Result id and store of C = A - B on the concrete leaves. -/
def c1Pair : Nat × Engine := (subOp 0 1 cBase).getD (0, Engine.empty)

/-- Store after C = A + B on the concrete leaves. -/
def c3Pair : Nat × Engine := (addOp 0 1 cBase).getD (0, Engine.empty)

/-- Concrete matrix [[1,2,3],[4,5,6]] of shape (2,3). -/
def cMA : NDArr := ⟨[2, 3], [1, 2, 3, 4, 5, 6]⟩

/-- Concrete matrix [[7,8],[9,10],[11,12]] of shape (3,2). -/
def cMB : NDArr := ⟨[3, 2], [7, 8, 9, 10, 11, 12]⟩

/-- Store after C = A @ B on the concrete (2,3) and (3,2) leaves. -/
def c4Pair : Nat × Engine := (matmulOp 0 1 (leafE2 cMA cMB)).getD (0, Engine.empty)

/-- Store holding the leaf [[1,2],[3,4]] and the coerced raw scalar 3
(a 0-dimensional leaf, as `__add__` creates for a non-tensor operand). -/
def c5Base : Engine := leafE2 cA (NDArr.scl 3)

/-- Store after X + 3 with the coerced scalar recorded as parent 1. -/
def c5Pair : Nat × Engine := (addOp 0 1 c5Base).getD (0, Engine.empty)

/-- A diamond graph: node 0 is shared ancestor of nodes 1 (relu) and
2 (transpose), which both feed node 3 (add). -/
def diamondE : Engine :=
  ⟨[⟨⟨[2, 2], [1, -2, 3, 4]⟩, ⟨[2, 2], [0, 0, 0, 0]⟩, [], .noop⟩,
    ⟨⟨[2, 2], [1, 0, 3, 4]⟩, ⟨[2, 2], [0, 0, 0, 0]⟩, [0], .reluR 0 1⟩,
    ⟨⟨[2, 2], [1, 3, -2, 4]⟩, ⟨[2, 2], [0, 0, 0, 0]⟩, [0], .transR 0 2⟩,
    ⟨⟨[2, 2], [2, 3, 1, 8]⟩, ⟨[2, 2], [0, 0, 0, 0]⟩, [1, 2], .addR 1 2 3⟩], true⟩

/-- A body for the tracking scope that returns normally. -/
def okBody : Engine → Except Engine Engine := fun e => .ok e

/-- A body for the tracking scope that raises. -/
def errBody : Engine → Except Engine Engine := fun e => .error e

/-- Entry function of the concrete matrix [[1,2],[3,4]]. -/
def cAf : Nat → Nat → ℚ := fun i j => cA.get2 i j

/-- Entry function of a matrix with mixed signs. -/
def cNf : Nat → Nat → ℚ := fun i j => if (i + j) % 2 = 0 then 1 else -1

namespace NDArr

lemma flatten_map_single {α β : Type} (L : List α) (g : α → β) :
    (L.map (fun x => [g x])).flatten = L.map g := by
  induction L with
  | nil => rfl
  | cons hd tl ih => simp [ih]

lemma length_indices (s : List Nat) : (indices s).length = s.prod := by
  induction s with
  | nil => rfl
  | cons d ds ih =>
    show (((List.range d).map (fun i => (indices ds).map (fun t => i :: t))).flatten).length
      = d * ds.prod
    rw [List.length_flatten, List.map_map]
    have hconst : (List.length ∘ fun i : Nat => (indices ds).map (fun t => i :: t))
        = fun _ : Nat => ds.prod := by
      funext i
      simp [ih]
    rw [hconst, List.map_const', List.sum_replicate]
    simp [smul_eq_mul]

lemma getD_map_lt {α β : Type} (g : α → β) (l : List α) (n : Nat) (d : β) (d2 : α)
    (h : n < l.length) : (l.map g).getD n d = g (l.getD n d2) := by
  rw [List.getD_eq_getElem (l.map g) d (by simpa using h), List.getD_eq_getElem l d2 h]
  simp

lemma getD_flatten (c j : Nat) (hj : j < c) :
    ∀ (L : List (List ℚ)) (i : Nat), (∀ x ∈ L, x.length = c) → i < L.length →
      (L.flatten).getD (i * c + j) 0 = (L.getD i []).getD j 0 := by
  intro L
  induction L with
  | nil => intro i _ hi; simp at hi
  | cons hd tl ih =>
    intro i hlen hi
    cases i with
    | zero =>
      have hhd : hd.length = c := hlen hd (by simp)
      simp only [List.flatten_cons, Nat.zero_mul, Nat.zero_add]
      rw [List.getD_append _ _ _ j (by rw [hhd]; exact hj)]
      rfl
    | succ m =>
      have hhd : hd.length = c := hlen hd (by simp)
      simp only [List.flatten_cons]
      rw [List.getD_append_right _ _ _ _ (by rw [hhd]; nlinarith)]
      have harith : (m + 1) * c + j - hd.length = m * c + j := by
        rw [hhd]
        have : (m + 1) * c = m * c + c := by ring
        omega
      rw [harith, ih m (fun x hx => hlen x (by simp [hx])) (by simpa using hi)]
      rfl

lemma indices_one (c : Nat) : indices [c] = (List.range c).map (fun j => [j]) := by
  show ((List.range c).map (fun i => (indices []).map (fun t => i :: t))).flatten = _
  have : (fun i => (indices []).map (fun t => i :: t)) = (fun i : Nat => [[i]]) := by
    funext i; rfl
  rw [this, flatten_map_single]

lemma indices_two (r c : Nat) :
    indices [r, c] =
      ((List.range r).map (fun i => (List.range c).map (fun j => [i, j]))).flatten := by
  show ((List.range r).map (fun i => (indices [c]).map (fun t => i :: t))).flatten = _
  congr 1
  apply List.map_congr_left
  intro i _
  rw [indices_one, List.map_map]
  rfl

lemma pos_two (r c i j : Nat) : pos [r, c] [i, j] = i * c + j := by
  simp [pos]

lemma getD_map_range {β : Type} (g : Nat → β) (n i : Nat) (d : β) (hi : i < n) :
    ((List.range n).map g).getD i d = g i := by
  rw [getD_map_lt g _ i d 0 (by simpa using hi)]
  rw [List.getD_eq_getElem _ _ (by simpa using hi)]
  simp

lemma get_make2 (r c : Nat) (f : List Nat → ℚ) (i j : Nat) (hi : i < r) (hj : j < c) :
    (make [r, c] f).get [i, j] = f [i, j] := by
  unfold make get
  simp only [pos_two]
  have hflat : (indices [r, c]).map f
      = ((List.range r).map (fun i => (List.range c).map (fun j => f [i, j]))).flatten := by
    rw [indices_two, List.map_flatten, List.map_map]
    congr 1
    apply List.map_congr_left
    intro i _
    simp [Function.comp, List.map_map]
  rw [hflat]
  rw [getD_flatten c j hj _ i ?hlen (by simpa using hi)]
  case hlen =>
    intro x hx
    simp only [List.mem_map] at hx
    obtain ⟨n, _, hn⟩ := hx
    simp [← hn]
  rw [getD_map_range _ r i [] hi, getD_map_range _ c j 0 hj]

lemma get2_make2 (r c : Nat) (f : List Nat → ℚ) (i j : Nat) (hi : i < r) (hj : j < c) :
    (make [r, c] f).get2 i j = f [i, j] := get_make2 r c f i j hi hj

lemma make_shape (s : List Nat) (f : List Nat → ℚ) : (make s f).shape = s := rfl

lemma make_val_length (s : List Nat) (f : List Nat → ℚ) :
    (make s f).val.length = s.prod := by
  simp [make, length_indices]

lemma pos2_lt (r c i j : Nat) (hi : i < r) (hj : j < c) : i * c + j < r * c := by
  calc i * c + j < i * c + c := by omega
  _ = (i + 1) * c := by ring
  _ ≤ r * c := Nat.mul_le_mul_right c hi

lemma get2_smap (a : NDArr) (g : ℚ → ℚ) (r c i j : Nat) (hs : a.shape = [r, c])
    (hv : a.val.length = r * c) (hi : i < r) (hj : j < c) :
    (smap a g).get2 i j = g (a.get2 i j) := by
  unfold smap get2 get
  simp only [hs, pos_two]
  exact getD_map_lt g a.val _ 0 0 (by rw [hv]; exact pos2_lt r c i j hi hj)

lemma smap_shape (a : NDArr) (g : ℚ → ℚ) : (smap a g).shape = a.shape := rfl

lemma smap_val_length (a : NDArr) (g : ℚ → ℚ) :
    (smap a g).val.length = a.val.length := by simp [smap]

lemma zeros_shape (s : List Nat) : (zeros s).shape = s := rfl

lemma ones_shape (s : List Nat) : (ones s).shape = s := rfl

lemma get2_zeros (r c i j : Nat) (hi : i < r) (hj : j < c) :
    (zeros [r, c]).get2 i j = 0 := get_make2 r c _ i j hi hj

lemma get2_ones (r c i j : Nat) (hi : i < r) (hj : j < c) :
    (ones [r, c]).get2 i j = 1 := get_make2 r c _ i j hi hj

lemma get2_arr2 (r c : Nat) (f : Nat → Nat → ℚ) (i j : Nat) (hi : i < r) (hj : j < c) :
    (arr2 r c f).get2 i j = f i j := by
  unfold arr2
  rw [get2_make2 r c _ i j hi hj]
  rfl

lemma arr2_shape (r c : Nat) (f : Nat → Nat → ℚ) : (arr2 r c f).shape = [r, c] := rfl

lemma bget_2d (a : NDArr) (r c i j : Nat) (hs : a.shape = [r, c]) (hi : i < r) (hj : j < c) :
    bget a [i, j] = a.get [i, j] := by
  unfold bget
  rw [hs]
  simp [List.zipWith, Nat.mod_eq_of_lt hi, Nat.mod_eq_of_lt hj]

lemma bget_col (a : NDArr) (r i j : Nat) (hs : a.shape = [r, 1]) (hi : i < r) :
    bget a [i, j] = a.get [i, 0] := by
  unfold bget
  rw [hs]
  simp [List.zipWith, Nat.mod_eq_of_lt hi, Nat.mod_one]

lemma bget_scl (a : NDArr) (hs : a.shape = []) (idx : List Nat) :
    bget a idx = a.get [] := by
  unfold bget
  rw [hs]
  simp

lemma bdim_self (d : Nat) : bdim d d = some d := by simp [bdim]

lemma bshapeRev_self (s : List Nat) : bshapeRev s s = some s := by
  induction s with
  | nil => rfl
  | cons d t ih => simp [bshapeRev, bdim_self, ih]

lemma bshape_self (s : List Nat) : bshape s s = some s := by
  simp [bshape, bshapeRev_self]

lemma bdim_one (c : Nat) : bdim c 1 = some c := by
  by_cases h : c = 1 <;> simp [bdim, h]

lemma bshape_col (r c : Nat) : bshape [r, c] [r, 1] = some [r, c] := by
  have h1 : bshapeRev [c, r] [1, r] = some [c, r] := by
    have h2 : bshapeRev [r] [r] = some [r] := bshapeRev_self [r]
    simp [bshapeRev, bdim_one, bdim_self, h2]
  simp [bshape, h1]

lemma bshape_scl (r c : Nat) : bshape [r, c] [] = some [r, c] := by
  simp [bshape, bshapeRev]

lemma npAdd_eq (a b : NDArr) (s : List Nat) (h : bshape a.shape b.shape = some s) :
    npAdd a b = some (make s (fun idx => bget a idx + bget b idx)) := by
  simp [npAdd, ewise, h]

lemma npMul_eq (a b : NDArr) (s : List Nat) (h : bshape a.shape b.shape = some s) :
    npMul a b = some (make s (fun idx => bget a idx * bget b idx)) := by
  simp [npMul, ewise, h]

lemma iadd_eq_npAdd (a b : NDArr) (h : bshape a.shape b.shape = some a.shape) :
    iadd a b = npAdd a b := by
  simp [iadd, h]

lemma range_map_sum (n : Nat) (f : Nat → ℚ) :
    ((List.range n).map f).sum = ∑ k ∈ Finset.range n, f k := by
  induction n with
  | zero => rfl
  | succ m ih =>
    rw [List.range_succ, Finset.sum_range_succ, List.map_append, List.sum_append, ih]
    simp

lemma tT_shape (a : NDArr) : (tT a).shape = a.shape.reverse := rfl

lemma get2_tT (a : NDArr) (r c i j : Nat) (hs : a.shape = [r, c]) (hi : i < r) (hj : j < c) :
    (tT a).get2 j i = a.get2 i j := by
  unfold tT get2
  rw [hs]
  show (make [c, r] _).get [j, i] = _
  rw [get_make2 c r _ j i hj hi]
  simp

lemma dot_eq (a b : NDArr) (m k n : Nat) (ha : a.shape = [m, k]) (hb : b.shape = [k, n]) :
    dot a b = some (make [m, n] (fun idx =>
      ((List.range k).map (fun t => a.get [idx.getD 0 0, t] * b.get [t, idx.getD 1 0])).sum)) := by
  unfold dot
  rw [ha, hb]
  simp

lemma get2_divN (a : NDArr) (q : ℚ) (r c i j : Nat) (hs : a.shape = [r, c])
    (hv : a.val.length = r * c) (hi : i < r) (hj : j < c) :
    (divN a q).get2 i j = a.get2 i j / q :=
  get2_smap a _ r c i j hs hv hi hj

lemma divN_shape (a : NDArr) (q : ℚ) : (divN a q).shape = a.shape := rfl

end NDArr

lemma default_prev : (default : Node).prev = [] := rfl

namespace Engine

lemma get_of_ge (e : Engine) (i : Nat) (h : e.nodes.length ≤ i) : e.get i = default := by
  unfold get
  exact List.getD_eq_default _ _ h

lemma length_setGrad (e : Engine) (i : Nat) (g : NDArr) :
    (e.setGrad i g).nodes.length = e.nodes.length := by
  simp [setGrad]

lemma track_setGrad (e : Engine) (i : Nat) (g : NDArr) :
    (e.setGrad i g).track = e.track := rfl

lemma get_setGrad_self (e : Engine) (i : Nat) (g : NDArr) (h : i < e.nodes.length) :
    (e.setGrad i g).get i = { e.get i with grad := g } := by
  unfold setGrad get
  rw [List.getD_eq_getElem _ _ (by simpa using h)]
  simp

lemma get_setGrad_ne (e : Engine) (i : Nat) (g : NDArr) (j : Nat) (h : j ≠ i) :
    (e.setGrad i g).get j = e.get j := by
  unfold setGrad get
  show (e.nodes.set i _).getD j default = e.nodes.getD j default
  rw [List.getD_eq_getElem?_getD, List.getD_eq_getElem?_getD,
    List.getElem?_set_ne (fun he => h he.symm)]
  exact (List.getD_eq_getElem?_getD _ _ _).symm

lemma get_setGrad_fields (e : Engine) (i : Nat) (g : NDArr) (j : Nat) :
    ((e.setGrad i g).get j).data = (e.get j).data
    ∧ ((e.setGrad i g).get j).prev = (e.get j).prev
    ∧ ((e.setGrad i g).get j).rule = (e.get j).rule := by
  by_cases hij : j = i
  · subst hij
    by_cases h : j < e.nodes.length
    · rw [get_setGrad_self e j g h]
      exact ⟨rfl, rfl, rfl⟩
    · unfold setGrad get
      rw [List.set_eq_of_length_le (le_of_not_lt h)]
      exact ⟨rfl, rfl, rfl⟩
  · rw [get_setGrad_ne e i g j hij]
    exact ⟨rfl, rfl, rfl⟩

end Engine

lemma wf_iff (e : Engine) : Wf e ↔ WfB e := by
  constructor
  · intro h x _
    exact h x
  · intro h x p hp
    by_cases hx : x < e.nodes.length
    · exact h x hx p hp
    · rw [Engine.get_of_ge e x (le_of_not_lt hx)] at hp
      rw [default_prev] at hp
      cases hp

instance (e : Engine) : Decidable (WfB e) := by
  unfold WfB
  infer_instance

instance (e : Engine) : Decidable (Wf e) :=
  decidable_of_iff (WfB e) (wf_iff e).symm

instance (e : Engine) : Decidable (RuleWf e) := by
  unfold RuleWf
  infer_instance

lemma applyUpds_get_fields (e : Engine) (u : List (Nat × NDArr)) (j : Nat) :
    ((applyUpds e u).get j).data = (e.get j).data
    ∧ ((applyUpds e u).get j).prev = (e.get j).prev
    ∧ ((applyUpds e u).get j).rule = (e.get j).rule
    ∧ (applyUpds e u).nodes.length = e.nodes.length
    ∧ (applyUpds e u).track = e.track := by
  induction u generalizing e with
  | nil => exact ⟨rfl, rfl, rfl, rfl, rfl⟩
  | cons q t ih =>
    show ((applyUpds (e.setGrad q.1 q.2) t).get j).data = _ ∧ _
    obtain ⟨h1, h2, h3⟩ := Engine.get_setGrad_fields e q.1 q.2 j
    obtain ⟨i1, i2, i3, i4, i5⟩ := ih (e.setGrad q.1 q.2)
    exact ⟨i1.trans h1, i2.trans h2, i3.trans h3,
      i4.trans (Engine.length_setGrad e q.1 q.2),
      i5.trans (Engine.track_setGrad e q.1 q.2)⟩

lemma applyUpds_get_notin (e : Engine) (u : List (Nat × NDArr)) (j : Nat)
    (h : ∀ q ∈ u, q.1 ≠ j) : (applyUpds e u).get j = e.get j := by
  induction u generalizing e with
  | nil => rfl
  | cons q t ih =>
    show (applyUpds (e.setGrad q.1 q.2) t).get j = _
    rw [ih (e.setGrad q.1 q.2) (fun p hp => h p (by simp [hp]))]
    exact Engine.get_setGrad_ne e q.1 q.2 j (fun he => h q (by simp) (he.symm))

lemma runRule_upds (e : Engine) (ρ : Rule) :
    ∃ u : List (Nat × NDArr), outEngine (runRule e ρ) = applyUpds e u
      ∧ ∀ q ∈ u, q.1 ∈ writes ρ := by
  cases ρ with
  | noop => exact ⟨[], rfl, by simp⟩
  | addR a b o =>
    simp only [runRule]
    split
    · exact ⟨[], rfl, by simp⟩
    · split
      · exact ⟨[], rfl, by simp⟩
      · rename_i ga _
        split
        · exact ⟨[(a, ga)], rfl, by simp [writes]⟩
        · split
          · exact ⟨[(a, ga)], rfl, by simp [writes]⟩
          · rename_i gb _
            exact ⟨[(a, ga), (b, gb)], rfl, by
              intro q hq
              simp only [List.mem_cons, List.not_mem_nil, or_false] at hq
              rcases hq with rfl | rfl <;> simp [writes]⟩
  | matmulR a b o =>
    simp only [runRule]
    split
    · exact ⟨[], rfl, by simp⟩
    · split
      · exact ⟨[], rfl, by simp⟩
      · rename_i ga _
        split
        · exact ⟨[(a, ga)], rfl, by simp [writes]⟩
        · split
          · exact ⟨[(a, ga)], rfl, by simp [writes]⟩
          · rename_i gb _
            exact ⟨[(a, ga), (b, gb)], rfl, by
              intro q hq
              simp only [List.mem_cons, List.not_mem_nil, or_false] at hq
              rcases hq with rfl | rfl <;> simp [writes]⟩
  | mulR a b o =>
    simp only [runRule]
    split
    · exact ⟨[], rfl, by simp⟩
    · split
      · exact ⟨[], rfl, by simp⟩
      · rename_i ga _
        split
        · exact ⟨[(a, ga)], rfl, by simp [writes]⟩
        · split
          · exact ⟨[(a, ga)], rfl, by simp [writes]⟩
          · rename_i gb _
            exact ⟨[(a, ga), (b, gb)], rfl, by
              intro q hq
              simp only [List.mem_cons, List.not_mem_nil, or_false] at hq
              rcases hq with rfl | rfl <;> simp [writes]⟩
  | reluR a o =>
    simp only [runRule]
    split
    · exact ⟨[], rfl, by simp⟩
    · split
      · exact ⟨[], rfl, by simp⟩
      · rename_i ga _
        exact ⟨[(a, ga)], rfl, by simp [writes]⟩
  | transR a o =>
    simp only [runRule]
    split
    · exact ⟨[], rfl, by simp⟩
    · rename_i ga _
      exact ⟨[(a, ga)], rfl, by simp [writes]⟩

lemma runRule_fields (e : Engine) (ρ : Rule) (j : Nat) :
    ((outEngine (runRule e ρ)).get j).data = (e.get j).data
    ∧ ((outEngine (runRule e ρ)).get j).prev = (e.get j).prev
    ∧ ((outEngine (runRule e ρ)).get j).rule = (e.get j).rule
    ∧ (outEngine (runRule e ρ)).nodes.length = e.nodes.length
    ∧ (outEngine (runRule e ρ)).track = e.track := by
  obtain ⟨u, hu, _⟩ := runRule_upds e ρ
  rw [hu]
  exact applyUpds_get_fields e u j

lemma runRule_frame (e : Engine) (ρ : Rule) (j : Nat) (h : j ∉ writes ρ) :
    (outEngine (runRule e ρ)).get j = e.get j := by
  obtain ⟨u, hu, hw⟩ := runRule_upds e ρ
  rw [hu]
  exact applyUpds_get_notin e u j (fun q hq he => h (he ▸ hw q hq))

lemma runRules_fields (L : List Nat) (e : Engine) (j : Nat) :
    ((outEngine (runRules e L)).get j).data = (e.get j).data
    ∧ ((outEngine (runRules e L)).get j).prev = (e.get j).prev
    ∧ ((outEngine (runRules e L)).get j).rule = (e.get j).rule
    ∧ (outEngine (runRules e L)).nodes.length = e.nodes.length
    ∧ (outEngine (runRules e L)).track = e.track := by
  induction L generalizing e with
  | nil => exact ⟨rfl, rfl, rfl, rfl, rfl⟩
  | cons c t ih =>
    simp only [runRules]
    cases hr : runRule e ((e.get c).rule) with
    | ok e1 =>
      obtain ⟨i1, i2, i3, i4, i5⟩ := ih e1
      have hf := runRule_fields e ((e.get c).rule) j
      rw [hr] at hf
      obtain ⟨f1, f2, f3, f4, f5⟩ := hf
      have hl := runRule_fields e ((e.get c).rule) j
      exact ⟨i1.trans f1, i2.trans f2, i3.trans f3,
        i4.trans ((by rw [hr] at hl; exact hl.2.2.2.1 : e1.nodes.length = e.nodes.length)),
        i5.trans ((by rw [hr] at hl; exact hl.2.2.2.2 : e1.track = e.track))⟩
    | error e1 =>
      have hf := runRule_fields e ((e.get c).rule) j
      rw [hr] at hf
      exact hf

lemma runRules_frame (L : List Nat) (e : Engine) (j : Nat)
    (h : ∀ c ∈ L, j ∉ writes ((e.get c).rule)) :
    (outEngine (runRules e L)).get j = e.get j := by
  induction L generalizing e with
  | nil => rfl
  | cons c t ih =>
    simp only [runRules]
    cases hr : runRule e ((e.get c).rule) with
    | ok e1 =>
      have hrule : ∀ d ∈ t, (e1.get d).rule = (e.get d).rule := by
        intro d _
        have hf := runRule_fields e ((e.get c).rule) d
        rw [hr] at hf
        exact hf.2.2.1
      have step : e1.get j = e.get j := by
        have hfr := runRule_frame e ((e.get c).rule) j (h c (by simp))
        rw [hr] at hfr
        exact hfr
      rw [ih e1 (fun d hd => by rw [hrule d hd]; exact h d (by simp [hd]))]
      exact step
    | error e1 =>
      have hfr := runRule_frame e ((e.get c).rule) j (h c (by simp))
      rw [hr] at hfr
      exact hfr

lemma reach_le (e : Engine) (hw : Wf e) (x y : Nat) (h : Reach e x y) : y ≤ x := by
  induction h with
  | refl z => exact le_refl z
  | step z p y2 hp _ ih => exact le_trans ih (le_of_lt (hw z p hp))

lemma before_append (l t : List Nat) (p x : Nat) (h : before l p x) :
    before (l ++ t) p x := by
  obtain ⟨n, hn, hp, hx⟩ := h
  refine ⟨n, by simp; omega, ?_, ?_⟩
  · rw [List.take_append_of_le_length hn]
    exact hp
  · rw [List.take_append_of_le_length hn]
    exact hx

lemma PB_nil (e : Engine) : PB e [] := by
  intro x hx
  cases hx

lemma PB_append_new (e : Engine) (v : List Nat) (x : Nat) (hv : PB e v)
    (hx : x ∉ v) (hpar : ∀ p ∈ (e.get x).prev, p ∈ v) : PB e (v ++ [x]) := by
  intro y hy p hp
  rcases List.mem_append.mp hy with hyv | hyx
  · obtain ⟨hmem, hb⟩ := hv y hyv p hp
    exact ⟨List.mem_append_left _ hmem, before_append _ _ _ _ hb⟩
  · have hyx2 : y = x := by simpa using hyx
    subst hyx2
    refine ⟨List.mem_append_left _ (hpar p hp), v.length, by simp, ?_, ?_⟩
    · rw [List.take_left]
      exact hpar p hp
    · rw [List.take_left]
      exact hx

lemma PB_reach_mem (e : Engine) (v : List Nat) (hv : PB e v) :
    ∀ x y : Nat, Reach e x y → x ∈ v → y ∈ v := by
  intro x y h
  induction h with
  | refl z => exact fun hz => hz
  | step z p y2 hp _ ih => exact fun hz => ih ((hv z hz p hp).1)

lemma dfs_main (e : Engine) (hw : Wf e) :
    ∀ fuel, ∀ x < fuel, ∀ v : List Nat, v.Nodup → PB e v →
      (∃ t, dfs e fuel v x = v ++ t ∧ ∀ y ∈ t, Reach e x y)
      ∧ (∀ y ∈ dfs e fuel v x, y ∈ v ∨ y ≤ x)
      ∧ (dfs e fuel v x).Nodup
      ∧ PB e (dfs e fuel v x)
      ∧ x ∈ dfs e fuel v x
      ∧ (∀ y, Reach e x y → y ∈ dfs e fuel v x) := by
  intro fuel
  induction fuel with
  | zero => exact fun x hx => absurd hx (Nat.not_lt_zero x)
  | succ m ih =>
    intro x hx v hnd hpb
    by_cases hxv : x ∈ v
    · have hd : dfs e (m + 1) v x = v := by
        simp [dfs, hxv]
      rw [hd]
      refine ⟨⟨[], by simp, by simp⟩, fun y hy => Or.inl hy, hnd, hpb, hxv, ?_⟩
      intro y hy
      exact PB_reach_mem e v hpb x y hy hxv
    · have hfold : ∀ L : List Nat, (∀ p ∈ L, p < x) → ∀ v2 : List Nat,
          v2.Nodup → PB e v2 →
          (∃ t, L.foldl (dfs e m) v2 = v2 ++ t ∧ ∀ y ∈ t, ∃ p ∈ L, Reach e p y)
          ∧ (∀ y ∈ L.foldl (dfs e m) v2, y ∈ v2 ∨ ∃ p ∈ L, y ≤ p)
          ∧ (L.foldl (dfs e m) v2).Nodup
          ∧ PB e (L.foldl (dfs e m) v2)
          ∧ (∀ p ∈ L, p ∈ L.foldl (dfs e m) v2)
          ∧ (∀ p ∈ L, ∀ y, Reach e p y → y ∈ L.foldl (dfs e m) v2) := by
        intro L
        induction L with
        | nil =>
          intro _ v2 hnd2 hpb2
          exact ⟨⟨[], by simp, by simp⟩, fun y hy => Or.inl hy, hnd2, hpb2,
            by simp, by simp⟩
        | cons p t ihL =>
          intro hlt v2 hnd2 hpb2
          have hpm : p < m := lt_of_lt_of_le (hlt p (by simp)) (Nat.lt_succ_iff.mp hx)
          obtain ⟨⟨t1, ht1, ht1r⟩, hbound1, hnd1, hpb1, hmem1, hcomp1⟩ :=
            ih p hpm v2 hnd2 hpb2
          obtain ⟨⟨t2, ht2, ht2r⟩, hbound2, hnd2b, hpb2b, hmem2, hcomp2⟩ :=
            ihL (fun q hq => hlt q (by simp [hq])) (dfs e m v2 p) hnd1 hpb1
          rw [List.foldl_cons]
          refine ⟨⟨t1 ++ t2, ?_, ?_⟩, ?_, hnd2b, hpb2b, ?_, ?_⟩
          · rw [ht2, ht1, List.append_assoc]
          · intro y hy
            rcases List.mem_append.mp hy with h | h
            · exact ⟨p, by simp, ht1r y h⟩
            · obtain ⟨q, hq, hr⟩ := ht2r y h
              exact ⟨q, by simp [hq], hr⟩
          · intro y hy
            rcases hbound2 y hy with h | h
            · rcases hbound1 y h with h2 | h2
              · exact Or.inl h2
              · exact Or.inr ⟨p, by simp, h2⟩
            · obtain ⟨q, hq, hle⟩ := h
              exact Or.inr ⟨q, by simp [hq], hle⟩
          · intro q hq
            rcases List.mem_cons.mp hq with rfl | hq2
            · rw [ht2]
              exact List.mem_append_left _ hmem1
            · exact hmem2 q hq2
          · intro q hq y hr
            rcases List.mem_cons.mp hq with rfl | hq2
            · rw [ht2]
              exact List.mem_append_left _ (hcomp1 y hr)
            · exact hcomp2 q hq2 y hr
      have hpar : ∀ p ∈ (e.get x).prev, p < x := fun p hp => hw x p hp
      obtain ⟨⟨t, ht, htr⟩, hbound, hndf, hpbf, hmemf, hcompf⟩ :=
        hfold (e.get x).prev hpar v hnd hpb
      have hd : dfs e (m + 1) v x = ((e.get x).prev.foldl (dfs e m) v) ++ [x] := by
        simp [dfs, hxv]
      have hxnw : x ∉ (e.get x).prev.foldl (dfs e m) v := by
        intro hxw
        rcases hbound x hxw with h | h
        · exact hxv h
        · obtain ⟨p, hp, hle⟩ := h
          exact absurd (lt_of_le_of_lt hle (hpar p hp)) (lt_irrefl x)
      rw [hd]
      refine ⟨⟨t ++ [x], by rw [ht, List.append_assoc], ?_⟩, ?_, ?_, ?_, ?_, ?_⟩
      · intro y hy
        rcases List.mem_append.mp hy with h | h
        · obtain ⟨p, hp, hr⟩ := htr y h
          exact Reach.step x p y hp hr
        · have hyx : y = x := by simpa using h
          subst hyx
          exact Reach.refl y
      · intro y hy
        rcases List.mem_append.mp hy with h | h
        · rcases hbound y h with h2 | h2
          · exact Or.inl h2
          · obtain ⟨p, hp, hle⟩ := h2
            exact Or.inr (le_of_lt (lt_of_le_of_lt hle (hpar p hp)))
        · have hyx : y = x := by simpa using h
          subst hyx
          exact Or.inr (le_refl y)
      · rw [List.nodup_append]
        refine ⟨hndf, List.nodup_singleton x, ?_⟩
        intro a ha ha2
        have hax : a = x := by simpa using ha2
        subst hax
        exact hxnw ha
      · exact PB_append_new e _ x hpbf hxnw hmemf
      · exact List.mem_append_right _ (by simp)
      · intro y hy
        cases hy with
        | refl => exact List.mem_append_right _ (by simp)
        | step _ p _ hp hr => exact List.mem_append_left _ (hcompf p hp y hr)

lemma topo_spec (e : Engine) (r : Nat) (hw : Wf e) (hr : r < e.nodes.length) :
    (topo e r).Nodup ∧ PB e (topo e r) ∧ (∀ y, y ∈ topo e r ↔ Reach e r y) := by
  obtain ⟨⟨t, ht, htr⟩, _, hnd, hpb, _, hcomp⟩ :=
    dfs_main e hw e.nodes.length r hr [] List.nodup_nil (PB_nil e)
  refine ⟨hnd, hpb, fun y => ⟨?_, fun h => hcomp y h⟩⟩
  intro hy
  have hyt : y ∈ t := by
    have := hy
    rw [show topo e r = dfs e e.nodes.length [] r from rfl, ht] at this
    simpa using this
  exact htr y hyt

lemma getD_append_len {α : Type} (l : List α) (x d : α) :
    (l ++ [x]).getD l.length d = x := by
  rw [List.getD_append_right _ _ _ _ (le_refl _)]
  simp

lemma get_append_self (e : Engine) (nd : Node) (tr : Bool) :
    (Engine.mk (e.nodes ++ [nd]) tr).get e.nodes.length = nd :=
  getD_append_len e.nodes nd default

lemma get_append_lt (e : Engine) (nd : Node) (tr : Bool) (i : Nat)
    (h : i < e.nodes.length) :
    (Engine.mk (e.nodes ++ [nd]) tr).get i = e.get i := by
  unfold Engine.get
  exact List.getD_append _ _ _ _ h

lemma get2_npAdd_same (x y z : NDArr) (r c : Nat) (hx : x.shape = [r, c])
    (hy : y.shape = [r, c]) (h : NDArr.npAdd x y = some z) :
    z.shape = [r, c] ∧ ∀ i j, i < r → j < c → z.get2 i j = x.get2 i j + y.get2 i j := by
  rw [NDArr.npAdd_eq x y [r, c] (by rw [hx, hy]; exact NDArr.bshape_self [r, c])] at h
  have hz := (Option.some.inj h).symm
  subst hz
  refine ⟨rfl, ?_⟩
  intro i j hi hj
  rw [NDArr.get2_make2 r c _ i j hi hj]
  rw [NDArr.bget_2d x r c i j hx hi hj, NDArr.bget_2d y r c i j hy hi hj]
  rfl

lemma get2_npMul_same (x y z : NDArr) (r c : Nat) (hx : x.shape = [r, c])
    (hy : y.shape = [r, c]) (h : NDArr.npMul x y = some z) :
    z.shape = [r, c] ∧ ∀ i j, i < r → j < c → z.get2 i j = x.get2 i j * y.get2 i j := by
  rw [NDArr.npMul_eq x y [r, c] (by rw [hx, hy]; exact NDArr.bshape_self [r, c])] at h
  have hz := (Option.some.inj h).symm
  subst hz
  refine ⟨rfl, ?_⟩
  intro i j hi hj
  rw [NDArr.get2_make2 r c _ i j hi hj]
  rw [NDArr.bget_2d x r c i j hx hi hj, NDArr.bget_2d y r c i j hy hi hj]
  rfl

lemma iadd_same (x y : NDArr) (r c : Nat) (hx : x.shape = [r, c])
    (hy : y.shape = [r, c]) : NDArr.iadd x y = NDArr.npAdd x y :=
  NDArr.iadd_eq_npAdd x y (by rw [hx, hy]; exact NDArr.bshape_self [r, c])

lemma sumAx1_2d (A : NDArr) (r c : Nat) (hs : A.shape = [r, c]) :
    NDArr.sumAx1 A = some (NDArr.make [r, 1] (fun idx =>
      match idx with
      | i :: _ :: tl => ((List.range c).map (fun k => A.get (i :: k :: tl))).sum
      | _ => 0)) := by
  unfold NDArr.sumAx1
  rw [hs]

lemma colavg_bget (A S : NDArr) (r c : Nat) (hs : A.shape = [r, c])
    (hS : NDArr.sumAx1 A = some S) (q : ℚ) (i j : Nat) (hi : i < r) :
    NDArr.bget (NDArr.divN S q) [i, j] = (∑ k ∈ Finset.range c, A.get2 i k) / q := by
  rw [sumAx1_2d A r c hs] at hS
  have hSeq := (Option.some.inj hS).symm
  subst hSeq
  rw [NDArr.bget_col _ r i j (by rfl) hi]
  show (NDArr.divN _ q).get2 i 0 = _
  rw [NDArr.get2_divN _ q r 1 i 0 (by rfl) (by simp [NDArr.make_val_length]) hi (by omega)]
  rw [NDArr.get2_make2 r 1 _ i 0 hi (by omega)]
  show (((List.range c).map (fun k => A.get (i :: k :: []))).sum) / q = _
  rw [NDArr.range_map_sum c (fun k => A.get [i, k])]
  rfl

lemma sumAx1_shape (A S : NDArr) (r c : Nat) (hs : A.shape = [r, c])
    (hS : NDArr.sumAx1 A = some S) : S.shape = [r, 1] := by
  rw [sumAx1_2d A r c hs] at hS
  rw [← Option.some.inj hS]
  rfl

lemma npAdd_col_facts (x y z : NDArr) (r c : Nat) (hx : x.shape = [r, c])
    (hy : y.shape = [r, 1]) (h : NDArr.npAdd x y = some z) :
    z.shape = [r, c] ∧ ∀ i j, i < r → j < c →
      z.get2 i j = x.get2 i j + NDArr.bget y [i, j] := by
  rw [NDArr.npAdd_eq x y [r, c] (by rw [hx, hy]; exact NDArr.bshape_col r c)] at h
  have hz := (Option.some.inj h).symm
  subst hz
  refine ⟨rfl, fun i j hi hj => ?_⟩
  rw [NDArr.get2_make2 r c _ i j hi hj, NDArr.bget_2d x r c i j hx hi hj]
  rfl

lemma npAdd_col_some (x y : NDArr) (r c : Nat) (hx : x.shape = [r, c])
    (hy : y.shape = [r, 1]) : ∃ z, NDArr.npAdd x y = some z :=
  ⟨_, NDArr.npAdd_eq x y [r, c] (by rw [hx, hy]; exact NDArr.bshape_col r c)⟩

unseal Rat.add Rat.mul Rat.inv Rat.sub in
/-- C3, general half: on any add output node over two tracked r x c operands
with r x c gradients, the installed add backward rule succeeds and gives each
operand its prior gradient plus the output gradient summed across the second
axis, divided by that axis's length c, broadcast across columns. -/
theorem add_backward_rule (r c : Nat) (dA dB dO gA gB gO : Nat → Nat → ℚ) :
    (∃ e2, runRule (addRuleEnv r c dA dB dO gA gB gO) (.addR 0 1 2) = .ok e2
      ∧ ∀ i j, i < r → j < c →
          ((e2.get 0).grad.get2 i j
              = gA i j + (∑ k ∈ Finset.range c, gO i k) / (c : ℚ))
          ∧ ((e2.get 1).grad.get2 i j
              = gB i j + (∑ k ∈ Finset.range c, gO i k) / (c : ℚ)))
    ∧ c3Pair.1 = 2
    ∧ (c3Pair.2.get 2).data = ⟨[2, 2], [6, 8, 10, 12]⟩
    ∧ (c3Pair.2.get 2).prev = [0, 1]
    ∧ isOkE (backward 2 c3Pair.2) = true
    ∧ ((outEngine (backward 2 c3Pair.2)).get 2).grad = NDArr.ones [2, 2]
    ∧ ((outEngine (backward 2 c3Pair.2)).get 0).grad = ⟨[2, 2], [1, 1, 1, 1]⟩
    ∧ ((outEngine (backward 2 c3Pair.2)).get 1).grad
        = ((outEngine (backward 2 c3Pair.2)).get 0).grad := by
  refine ⟨?_, by decide, by decide, by decide, by decide, by decide, by decide, by decide⟩
  set E := addRuleEnv r c dA dB dO gA gB gO with hE
  have hlen : E.nodes.length = 3 := rfl
  have hg0 : E.get 0 = ⟨NDArr.arr2 r c dA, NDArr.arr2 r c gA, [], .noop⟩ := rfl
  have hg1 : E.get 1 = ⟨NDArr.arr2 r c dB, NDArr.arr2 r c gB, [], .noop⟩ := rfl
  have hg2 : E.get 2 = ⟨NDArr.arr2 r c dO, NDArr.arr2 r c gO, [0, 1], .addR 0 1 2⟩ := rfl
  obtain ⟨SS, hSS⟩ : ∃ S, NDArr.sumAx1 (NDArr.arr2 r c gO) = some S :=
    ⟨_, sumAx1_2d _ r c rfl⟩
  have hSsh : SS.shape = [r, 1] := sumAx1_shape _ _ r c rfl hSS
  have hdsh : (NDArr.divN SS ((c : Nat) : ℚ)).shape = [r, 1] := hSsh
  obtain ⟨GA2, hGA2⟩ := npAdd_col_some (NDArr.arr2 r c gA) (NDArr.divN SS ((c : Nat) : ℚ))
    r c rfl hdsh
  obtain ⟨GB2, hGB2⟩ := npAdd_col_some (NDArr.arr2 r c gB) (NDArr.divN SS ((c : Nat) : ℚ))
    r c rfl hdsh
  obtain ⟨hGAsh, hGAv⟩ := npAdd_col_facts _ _ _ r c rfl hdsh hGA2
  obtain ⟨hGBsh, hGBv⟩ := npAdd_col_facts _ _ _ r c rfl hdsh hGB2
  have hrun : runRule E (.addR 0 1 2) = .ok ((E.setGrad 0 GA2).setGrad 1 GB2) := by
    simp only [runRule, hg2]
    have hcast : ((NDArr.arr2 r c gO).shape.getD 1 0 : Nat) = c := rfl
    simp only [hcast, hSS, hg0]
    simp only [hGA2]
    rw [Engine.get_setGrad_ne E 0 GA2 2 (by omega), Engine.get_setGrad_ne E 0 GA2 1 (by omega)]
    simp only [hg2, hcast, hSS, hg1]
    simp only [hGB2]
  refine ⟨(E.setGrad 0 GA2).setGrad 1 GB2, hrun, ?_⟩
  intro i j hi hj
  have hfin0 : ((E.setGrad 0 GA2).setGrad 1 GB2).get 0 = { E.get 0 with grad := GA2 } := by
    rw [Engine.get_setGrad_ne _ 1 GB2 0 (by omega), Engine.get_setGrad_self E 0 GA2 (by omega)]
  have hfin1 : ((E.setGrad 0 GA2).setGrad 1 GB2).get 1
      = { (E.setGrad 0 GA2).get 1 with grad := GB2 } :=
    Engine.get_setGrad_self (E.setGrad 0 GA2) 1 GB2 (by rw [Engine.length_setGrad, hlen]; omega)
  have hsum : (∑ k ∈ Finset.range c, (NDArr.arr2 r c gO).get2 i k)
      = ∑ k ∈ Finset.range c, gO i k :=
    Finset.sum_congr rfl (fun k hk => NDArr.get2_arr2 r c gO i k hi (Finset.mem_range.mp hk))
  constructor
  · rw [hfin0]
    show GA2.get2 i j = _
    rw [hGAv i j hi hj]
    rw [colavg_bget (NDArr.arr2 r c gO) SS r c rfl hSS _ i j hi]
    rw [NDArr.get2_arr2 r c gA i j hi hj, hsum]
  · rw [hfin1]
    show GB2.get2 i j = _
    rw [hGBv i j hi hj]
    rw [colavg_bget (NDArr.arr2 r c gO) SS r c rfl hSS _ i j hi]
    rw [NDArr.get2_arr2 r c gB i j hi hj, hsum]

/-- Witness for the C3 theorem at the concrete entries of [[1,2],[3,4]]. -/
theorem add_backward_rule_witness :
    (∃ e2, runRule (addRuleEnv 2 2 cAf cAf cAf cAf cAf cAf) (.addR 0 1 2) = .ok e2
      ∧ ∀ i j, i < 2 → j < 2 →
          ((e2.get 0).grad.get2 i j
              = cAf i j + (∑ k ∈ Finset.range 2, cAf i k) / ((2 : Nat) : ℚ))
          ∧ ((e2.get 1).grad.get2 i j
              = cAf i j + (∑ k ∈ Finset.range 2, cAf i k) / ((2 : Nat) : ℚ)))
    ∧ c3Pair.1 = 2
    ∧ (c3Pair.2.get 2).data = ⟨[2, 2], [6, 8, 10, 12]⟩
    ∧ (c3Pair.2.get 2).prev = [0, 1]
    ∧ isOkE (backward 2 c3Pair.2) = true
    ∧ ((outEngine (backward 2 c3Pair.2)).get 2).grad = NDArr.ones [2, 2]
    ∧ ((outEngine (backward 2 c3Pair.2)).get 0).grad = ⟨[2, 2], [1, 1, 1, 1]⟩
    ∧ ((outEngine (backward 2 c3Pair.2)).get 1).grad
        = ((outEngine (backward 2 c3Pair.2)).get 0).grad :=
  add_backward_rule 2 2 cAf cAf cAf cAf cAf cAf

lemma dot_facts (x y z : NDArr) (m k n : Nat) (hx : x.shape = [m, k])
    (hy : y.shape = [k, n]) (h : NDArr.dot x y = some z) :
    z.shape = [m, n] ∧ z.val.length = m * n ∧ ∀ i j, i < m → j < n →
      z.get2 i j = ∑ t ∈ Finset.range k, x.get2 i t * y.get2 t j := by
  rw [NDArr.dot_eq x y m k n hx hy] at h
  have hz := (Option.some.inj h).symm
  subst hz
  refine ⟨rfl, by simp [NDArr.make_val_length], fun i j hi hj => ?_⟩
  rw [NDArr.get2_make2 m n _ i j hi hj]
  rw [NDArr.range_map_sum]
  rfl

lemma dot_some (x y : NDArr) (m k n : Nat) (hx : x.shape = [m, k])
    (hy : y.shape = [k, n]) : ∃ z, NDArr.dot x y = some z :=
  ⟨_, NDArr.dot_eq x y m k n hx hy⟩

lemma iadd_some_same (x y : NDArr) (r c : Nat) (hx : x.shape = [r, c])
    (hy : y.shape = [r, c]) : ∃ z, NDArr.iadd x y = some z := by
  rw [iadd_same x y r c hx hy]
  exact ⟨_, NDArr.npAdd_eq x y [r, c] (by rw [hx, hy]; exact NDArr.bshape_self [r, c])⟩

lemma iadd_facts (x y z : NDArr) (r c : Nat) (hx : x.shape = [r, c])
    (hy : y.shape = [r, c]) (h : NDArr.iadd x y = some z) :
    z.shape = [r, c] ∧ ∀ i j, i < r → j < c → z.get2 i j = x.get2 i j + y.get2 i j := by
  rw [iadd_same x y r c hx hy] at h
  exact get2_npAdd_same x y z r c hx hy h

unseal Rat.add Rat.mul Rat.inv Rat.sub in
/-- C4: on any matrix-product output node (A of shape m x k, B of shape
k x n) the installed backward rule succeeds, adds (output gradient) times
B transposed into A's gradient, and adds (A transposed times the output
gradient) divided by A's row count m into B's gradient; concretely for
A = [[1,2,3],[4,5,6]] and B = [[7,8],[9,10],[11,12]] the forward value is
[[58,64],[139,154]] and after backward with the all-ones seed A.grad is
ones(2,2) times B transposed and B.grad is (A transposed times ones(2,2))/2. -/
theorem matmul_backward_rule (m k n : Nat) (dA dB dO gA gB gO : Nat → Nat → ℚ) :
    (∃ e2, runRule (matmulRuleEnv m k n dA dB dO gA gB gO) (.matmulR 0 1 2) = .ok e2
      ∧ (∀ i j, i < m → j < k →
          (e2.get 0).grad.get2 i j
            = gA i j + ∑ t ∈ Finset.range n, gO i t * dB j t)
      ∧ (∀ i j, i < k → j < n →
          (e2.get 1).grad.get2 i j
            = gB i j + (∑ t ∈ Finset.range m, dA t i * gO t j) / ((m : Nat) : ℚ)))
    ∧ c4Pair.1 = 2
    ∧ (c4Pair.2.get 2).data = ⟨[2, 2], [58, 64, 139, 154]⟩
    ∧ isOkE (backward 2 c4Pair.2) = true
    ∧ ((outEngine (backward 2 c4Pair.2)).get 0).grad
        = ⟨[2, 3], [15, 19, 23, 15, 19, 23]⟩
    ∧ ((outEngine (backward 2 c4Pair.2)).get 1).grad
        = ⟨[3, 2], [5/2, 5/2, 7/2, 7/2, 9/2, 9/2]⟩ := by
  refine ⟨?_, by decide, by decide, by decide, by decide, by decide⟩
  set E := matmulRuleEnv m k n dA dB dO gA gB gO with hE
  have hlen : E.nodes.length = 3 := rfl
  have hg0 : E.get 0 = ⟨NDArr.arr2 m k dA, NDArr.arr2 m k gA, [], .noop⟩ := rfl
  have hg1 : E.get 1 = ⟨NDArr.arr2 k n dB, NDArr.arr2 k n gB, [], .noop⟩ := rfl
  have hg2 : E.get 2 = ⟨NDArr.arr2 m n dO, NDArr.arr2 m n gO, [0, 1], .matmulR 0 1 2⟩ := rfl
  have htB : (NDArr.tT (NDArr.arr2 k n dB)).shape = [n, k] := rfl
  obtain ⟨T1, hT1⟩ := dot_some (NDArr.arr2 m n gO) (NDArr.tT (NDArr.arr2 k n dB))
    m n k rfl htB
  obtain ⟨hT1sh, _, hT1v⟩ := dot_facts _ _ _ m n k rfl htB hT1
  obtain ⟨GA2, hGA2⟩ := iadd_some_same (NDArr.arr2 m k gA) T1 m k rfl hT1sh
  obtain ⟨_, hGAv⟩ := iadd_facts _ _ _ m k rfl hT1sh hGA2
  have htA : (NDArr.tT (NDArr.arr2 m k dA)).shape = [k, m] := rfl
  obtain ⟨T2, hT2⟩ := dot_some (NDArr.tT (NDArr.arr2 m k dA)) (NDArr.arr2 m n gO)
    k m n htA rfl
  obtain ⟨hT2sh, hT2len, hT2v⟩ := dot_facts _ _ _ k m n htA rfl hT2
  have hdT2 : (NDArr.divN T2 ((m : Nat) : ℚ)).shape = [k, n] := hT2sh
  obtain ⟨GB2, hGB2⟩ := iadd_some_same (NDArr.arr2 k n gB) (NDArr.divN T2 ((m : Nat) : ℚ))
    k n rfl hdT2
  obtain ⟨_, hGBv⟩ := iadd_facts _ _ _ k n rfl hdT2 hGB2
  have hrun : runRule E (.matmulR 0 1 2) = .ok ((E.setGrad 0 GA2).setGrad 1 GB2) := by
    simp only [runRule, hg2, hg1, hg0]
    simp only [hT1]
    simp only [hGA2]
    rw [Engine.get_setGrad_self E 0 GA2 (by rw [hlen]; omega),
      Engine.get_setGrad_ne E 0 GA2 2 (by omega), Engine.get_setGrad_ne E 0 GA2 1 (by omega)]
    simp only [hg0, hg1, hg2]
    simp only [hT2]
    have hm : (NDArr.arr2 m k dA).shape.getD 0 0 = m := rfl
    simp only [hm, hGB2]
  refine ⟨(E.setGrad 0 GA2).setGrad 1 GB2, hrun, ?_, ?_⟩
  · intro i j hi hj
    have hfin0 : ((E.setGrad 0 GA2).setGrad 1 GB2).get 0 = { E.get 0 with grad := GA2 } := by
      rw [Engine.get_setGrad_ne _ 1 GB2 0 (by omega),
        Engine.get_setGrad_self E 0 GA2 (by rw [hlen]; omega)]
    rw [hfin0]
    show GA2.get2 i j = _
    rw [hGAv i j hi hj, hT1v i j hi hj, NDArr.get2_arr2 m k gA i j hi hj]
    congr 1
    apply Finset.sum_congr rfl
    intro t ht
    rw [NDArr.get2_arr2 m n gO i t hi (Finset.mem_range.mp ht)]
    rw [NDArr.get2_tT (NDArr.arr2 k n dB) k n j t rfl hj (Finset.mem_range.mp ht)]
    rw [NDArr.get2_arr2 k n dB j t hj (Finset.mem_range.mp ht)]
  · intro i j hi hj
    have hfin1 : ((E.setGrad 0 GA2).setGrad 1 GB2).get 1
        = { (E.setGrad 0 GA2).get 1 with grad := GB2 } :=
      Engine.get_setGrad_self (E.setGrad 0 GA2) 1 GB2 (by rw [Engine.length_setGrad, hlen]; omega)
    rw [hfin1]
    show GB2.get2 i j = _
    rw [hGBv i j hi hj, NDArr.get2_arr2 k n gB i j hi hj]
    rw [NDArr.get2_divN T2 _ k n i j hT2sh (by rw [hT2len]) hi hj]
    rw [hT2v i j hi hj]
    congr 2
    apply Finset.sum_congr rfl
    intro t ht
    rw [NDArr.get2_tT (NDArr.arr2 m k dA) m k t i rfl (Finset.mem_range.mp ht) hi]
    rw [NDArr.get2_arr2 m k dA t i (Finset.mem_range.mp ht) hi]
    rw [NDArr.get2_arr2 m n gO t j (Finset.mem_range.mp ht) hj]

/-- Witness for the C4 theorem at shapes (2,3) x (3,2). -/
theorem matmul_backward_rule_witness :
    (∃ e2, runRule (matmulRuleEnv 2 3 2 cAf cAf cAf cAf cAf cAf) (.matmulR 0 1 2) = .ok e2
      ∧ (∀ i j, i < 2 → j < 3 →
          (e2.get 0).grad.get2 i j
            = cAf i j + ∑ t ∈ Finset.range 2, cAf i t * cAf j t)
      ∧ (∀ i j, i < 3 → j < 2 →
          (e2.get 1).grad.get2 i j
            = cAf i j + (∑ t ∈ Finset.range 2, cAf t i * cAf t j) / ((2 : Nat) : ℚ)))
    ∧ c4Pair.1 = 2
    ∧ (c4Pair.2.get 2).data = ⟨[2, 2], [58, 64, 139, 154]⟩
    ∧ isOkE (backward 2 c4Pair.2) = true
    ∧ ((outEngine (backward 2 c4Pair.2)).get 0).grad
        = ⟨[2, 3], [15, 19, 23, 15, 19, 23]⟩
    ∧ ((outEngine (backward 2 c4Pair.2)).get 1).grad
        = ⟨[3, 2], [5/2, 5/2, 7/2, 7/2, 9/2, 9/2]⟩ :=
  matmul_backward_rule 2 3 2 cAf cAf cAf cAf cAf cAf

lemma arr2_val_length (r c : Nat) (f : Nat → Nat → ℚ) :
    (NDArr.arr2 r c f).val.length = r * c := by
  show (NDArr.make [r, c] _).val.length = r * c
  rw [NDArr.make_val_length]
  simp

/-- C8: for Y = relu(X) over an arbitrary r x c leaf X, the backward pass
succeeds, Y's data is the elementwise maximum of X's data and zero, the
incoming (seeded) output gradient at Y is 1 everywhere, and X's gradient is
zero wherever Y's data is zero and equals the incoming gradient wherever
Y's data is strictly positive. -/
theorem relu_backward_masks (r c : Nat) (f : Nat → Nat → ℚ) :
    ∃ e2, backward 1 (reluG r c f) = .ok e2
      ∧ ∀ i j, i < r → j < c →
          ((e2.get 1).data.get2 i j = max (f i j) 0)
          ∧ ((e2.get 1).grad.get2 i j = 1)
          ∧ ((e2.get 1).data.get2 i j = 0 → (e2.get 0).grad.get2 i j = 0)
          ∧ (0 < (e2.get 1).data.get2 i j →
              (e2.get 0).grad.get2 i j = (e2.get 1).grad.get2 i j) := by
  set E := reluG r c f with hEdef
  set X := NDArr.arr2 r c f with hXdef
  set Y := NDArr.smap X (fun x => if x < 0 then 0 else x) with hYdef
  set mask := NDArr.smap Y (fun x => if 0 < x then 1 else 0) with hMdef
  set seedE := E.setGrad 1 (NDArr.ones [r, c]) with hSdef
  have hXlen : X.val.length = r * c := arr2_val_length r c f
  have hYlen : Y.val.length = r * c := by rw [hYdef, NDArr.smap_val_length, hXlen]
  have hMlen : mask.val.length = r * c := by rw [hMdef, NDArr.smap_val_length, hYlen]
  have hYsh : Y.shape = [r, c] := rfl
  have hMsh : mask.shape = [r, c] := rfl
  have hb : backward 1 E = runRules seedE [1, 0] := rfl
  have hs1 : seedE.get 1 = ⟨Y, NDArr.ones [r, c], [0], .reluR 0 1⟩ := rfl
  have hs0 : seedE.get 0 = ⟨X, NDArr.zeros [r, c], [], .noop⟩ := rfl
  obtain ⟨T1, hT1⟩ : ∃ z, NDArr.npMul mask (NDArr.ones [r, c]) = some z :=
    ⟨_, NDArr.npMul_eq _ _ [r, c] (by rw [hMsh]; exact NDArr.bshape_self [r, c])⟩
  obtain ⟨hT1sh, hT1v⟩ := get2_npMul_same _ _ _ r c hMsh rfl hT1
  obtain ⟨GX, hGX⟩ := iadd_some_same (NDArr.zeros [r, c]) T1 r c rfl hT1sh
  obtain ⟨_, hGXv⟩ := iadd_facts _ _ _ r c rfl hT1sh hGX
  have hrun : runRules seedE [1, 0] = .ok (seedE.setGrad 0 GX) := by
    have hrr1 : (seedE.get 1).rule = .reluR 0 1 := rfl
    simp only [runRules, hrr1, runRule, hs1, hs0]
    simp only [hT1, hGX]
    have hrr0 : ((seedE.setGrad 0 GX).get 0).rule = Rule.noop := by
      rw [(Engine.get_setGrad_fields seedE 0 GX 0).2.2, hs0]
    simp only [hrr0, runRule]
  refine ⟨seedE.setGrad 0 GX, hb.trans hrun, ?_⟩
  intro i j hi hj
  have hf1 : (seedE.setGrad 0 GX).get 1 = seedE.get 1 :=
    Engine.get_setGrad_ne seedE 0 GX 1 (by omega)
  have hf0 : (seedE.setGrad 0 GX).get 0 = { seedE.get 0 with grad := GX } :=
    Engine.get_setGrad_self seedE 0 GX (by rw [Engine.length_setGrad]; exact (by omega : 0 < 2))
  have hYv : Y.get2 i j = if f i j < 0 then 0 else f i j := by
    rw [hYdef, NDArr.get2_smap X _ r c i j rfl hXlen hi hj, hXdef,
      NDArr.get2_arr2 r c f i j hi hj]
  have hMv : mask.get2 i j = if 0 < Y.get2 i j then 1 else 0 := by
    rw [hMdef, NDArr.get2_smap Y _ r c i j hYsh hYlen hi hj]
  have hGXv2 : GX.get2 i j = mask.get2 i j * 1 := by
    rw [hGXv i j hi hj, NDArr.get2_zeros r c i j hi hj, hT1v i j hi hj,
      NDArr.get2_ones r c i j hi hj]
    ring
  rw [hf1, hf0, hs1]
  show Y.get2 i j = max (f i j) 0 ∧ (NDArr.ones [r, c]).get2 i j = 1
    ∧ (Y.get2 i j = 0 → GX.get2 i j = 0)
    ∧ (0 < Y.get2 i j → GX.get2 i j = (NDArr.ones [r, c]).get2 i j)
  refine ⟨?_, NDArr.get2_ones r c i j hi hj, ?_, ?_⟩
  · rw [hYv]
    rcases lt_or_le (f i j) 0 with h | h
    · rw [if_pos h, max_eq_right (le_of_lt h)]
    · rw [if_neg (not_lt.mpr h), max_eq_left h]
  · intro h0
    rw [hGXv2, hMv, h0]
    simp
  · intro hpos
    rw [hGXv2, hMv, if_pos hpos, NDArr.get2_ones r c i j hi hj]
    ring

/-- Witness for the C8 theorem on a 2 x 2 leaf with mixed signs. -/
theorem relu_backward_masks_witness :
    ∃ e2, backward 1 (reluG 2 2 cNf) = .ok e2
      ∧ ∀ i j, i < 2 → j < 2 →
          ((e2.get 1).data.get2 i j = max (cNf i j) 0)
          ∧ ((e2.get 1).grad.get2 i j = 1)
          ∧ ((e2.get 1).data.get2 i j = 0 → (e2.get 0).grad.get2 i j = 0)
          ∧ (0 < (e2.get 1).data.get2 i j →
              (e2.get 0).grad.get2 i j = (e2.get 1).grad.get2 i j) :=
  relu_backward_masks 2 2 cNf

/-- C9: for an arbitrary r x c leaf X with zero-initialized gradient,
running the backward executor on X.T.T leaves X's gradient (all ones)
numerically identical, entry by entry and in shape, to the gradient X
receives from running the backward executor directly on X. -/
theorem transpose_roundtrip_backward (r c : Nat) (f : Nat → Nat → ℚ) :
    ∃ eZ eX, backward 2 (transG r c f) = .ok eZ
      ∧ backward 0 (leafE1 (NDArr.arr2 r c f)) = .ok eX
      ∧ (eZ.get 0).grad.shape = (eX.get 0).grad.shape
      ∧ ∀ i j, i < r → j < c → (eZ.get 0).grad.get2 i j = (eX.get 0).grad.get2 i j := by
  set X := NDArr.arr2 r c f with hXdef
  set E := transG r c f with hEdef
  set seedE := E.setGrad 2 (NDArr.ones [r, c]) with hSdef
  have hb : backward 2 E = runRules seedE [2, 1, 0] := rfl
  have hs2 : seedE.get 2 = ⟨NDArr.tT (NDArr.tT X), NDArr.ones [r, c], [1], .transR 1 2⟩ := rfl
  have hs1 : seedE.get 1 = ⟨NDArr.tT X, NDArr.zeros [c, r], [0], .transR 0 1⟩ := rfl
  have hs0 : seedE.get 0 = ⟨X, NDArr.zeros [r, c], [], .noop⟩ := rfl
  have htT1sh : (NDArr.tT (NDArr.ones [r, c])).shape = [c, r] := rfl
  obtain ⟨G1, hG1⟩ := iadd_some_same (NDArr.zeros [c, r]) (NDArr.tT (NDArr.ones [r, c]))
    c r rfl htT1sh
  obtain ⟨hG1sh, hG1v⟩ := iadd_facts _ _ _ c r rfl htT1sh hG1
  have htTG1 : (NDArr.tT G1).shape = [r, c] := by
    rw [NDArr.tT_shape, hG1sh]
    rfl
  obtain ⟨G0, hG0⟩ := iadd_some_same (NDArr.zeros [r, c]) (NDArr.tT G1) r c rfl htTG1
  obtain ⟨hG0sh, hG0v⟩ := iadd_facts _ _ _ r c rfl htTG1 hG0
  have hrun : runRules seedE [2, 1, 0] = .ok ((seedE.setGrad 1 G1).setGrad 0 G0) := by
    have hrr2 : (seedE.get 2).rule = .transR 1 2 := rfl
    simp only [runRules, hrr2, runRule, hs1, hs2]
    simp only [hG1]
    have hrr1 : ((seedE.setGrad 1 G1).get 1).rule = Rule.transR 0 1 := by
      rw [Engine.get_setGrad_self seedE 1 G1 (by exact (by omega : 1 < 3)), hs1]
    simp only [hrr1, runRule]
    have hget0 : (seedE.setGrad 1 G1).get 0 = ⟨X, NDArr.zeros [r, c], [], .noop⟩ := by
      rw [Engine.get_setGrad_ne seedE 1 G1 0 (by omega), hs0]
    have hget1 : (seedE.setGrad 1 G1).get 1
        = ⟨NDArr.tT X, G1, [0], .transR 0 1⟩ := by
      rw [Engine.get_setGrad_self seedE 1 G1 (by exact (by omega : 1 < 3)), hs1]
    simp only [hget0, hget1]
    simp only [hG0]
    have hrr0 : (((seedE.setGrad 1 G1).setGrad 0 G0).get 0).rule = Rule.noop := by
      rw [(Engine.get_setGrad_fields (seedE.setGrad 1 G1) 0 G0 0).2.2, hget0]
    simp only [hrr0, runRule]
  have hbX : backward 0 (leafE1 X)
      = .ok ((leafE1 X).setGrad 0 (NDArr.ones [r, c])) := rfl
  refine ⟨(seedE.setGrad 1 G1).setGrad 0 G0, (leafE1 X).setGrad 0 (NDArr.ones [r, c]),
    hb.trans hrun, hbX, ?_, ?_⟩
  · have h1 : (((seedE.setGrad 1 G1).setGrad 0 G0).get 0).grad = G0 := by
      rw [Engine.get_setGrad_self (seedE.setGrad 1 G1) 0 G0
        (by rw [Engine.length_setGrad]; exact (by omega : 0 < 3))]
    have h2 : (((leafE1 X).setGrad 0 (NDArr.ones [r, c])).get 0).grad
        = NDArr.ones [r, c] := rfl
    rw [h1, h2, hG0sh]
    rfl
  · intro i j hi hj
    have h1 : (((seedE.setGrad 1 G1).setGrad 0 G0).get 0).grad = G0 := by
      rw [Engine.get_setGrad_self (seedE.setGrad 1 G1) 0 G0
        (by rw [Engine.length_setGrad]; exact (by omega : 0 < 3))]
    have h2 : (((leafE1 X).setGrad 0 (NDArr.ones [r, c])).get 0).grad
        = NDArr.ones [r, c] := rfl
    rw [h1, h2]
    rw [hG0v i j hi hj, NDArr.get2_zeros r c i j hi hj]
    rw [NDArr.get2_tT G1 c r j i hG1sh hj hi]
    rw [hG1v j i hj hi, NDArr.get2_zeros c r j i hj hi]
    rw [NDArr.get2_tT (NDArr.ones [r, c]) r c i j rfl hi hj]
    rw [NDArr.get2_ones r c i j hi hj]
    norm_num

/-- Witness for the C9 theorem on a non-square 2 x 3 leaf. -/
theorem transpose_roundtrip_witness :
    ∃ eZ eX, backward 2 (transG 2 3 cAf) = .ok eZ
      ∧ backward 0 (leafE1 (NDArr.arr2 2 3 cAf)) = .ok eX
      ∧ (eZ.get 0).grad.shape = (eX.get 0).grad.shape
      ∧ ∀ i j, i < 2 → j < 3 → (eZ.get 0).grad.get2 i j = (eX.get 0).grad.get2 i j :=
  transpose_roundtrip_backward 2 3 cAf

/-- C7: with tracking disabled, each operation still computes the same
forward data it would compute with tracking enabled, but the output node
records no parents and installs the no-op backward closure, whose
invocation returns the store unchanged. -/
theorem untracked_ops_forward_only (e : Engine) (h : e.track = false) :
    (∀ s : Engine, runRule s Rule.noop = .ok s)
    ∧ (∀ a b o e2, addOp a b e = some (o, e2) →
        (e2.get o).prev = [] ∧ (e2.get o).rule = .noop
        ∧ ∃ e3, addOp a b { e with track := true } = some (o, e3)
            ∧ (e3.get o).data = (e2.get o).data)
    ∧ (∀ a b o e2, matmulOp a b e = some (o, e2) →
        (e2.get o).prev = [] ∧ (e2.get o).rule = .noop
        ∧ ∃ e3, matmulOp a b { e with track := true } = some (o, e3)
            ∧ (e3.get o).data = (e2.get o).data)
    ∧ (∀ a b o e2, mulOp a b e = some (o, e2) →
        (e2.get o).prev = [] ∧ (e2.get o).rule = .noop
        ∧ ∃ e3, mulOp a b { e with track := true } = some (o, e3)
            ∧ (e3.get o).data = (e2.get o).data)
    ∧ (∀ a, ((reluOp a e).2.get (reluOp a e).1).prev = []
        ∧ ((reluOp a e).2.get (reluOp a e).1).rule = .noop
        ∧ ((reluOp a e).2.get (reluOp a e).1).data
          = ((reluOp a { e with track := true }).2.get
              (reluOp a { e with track := true }).1).data)
    ∧ (∀ a, ((transOp a e).2.get (transOp a e).1).prev = []
        ∧ ((transOp a e).2.get (transOp a e).1).rule = .noop
        ∧ ((transOp a e).2.get (transOp a e).1).data
          = ((transOp a { e with track := true }).2.get
              (transOp a { e with track := true }).1).data) := by
  refine ⟨fun s => rfl, ?_, ?_, ?_, ?_, ?_⟩
  · intro a b o e2 hop
    simp only [addOp] at hop
    cases hnp : NDArr.npAdd (e.get a).data (e.get b).data with
    | none => rw [hnp] at hop; cases hop
    | some d =>
      rw [hnp, h] at hop
      simp only [Bool.false_eq_true, if_false, Option.some.injEq, Prod.mk.injEq] at hop
      obtain ⟨ho, he2⟩ := hop
      subst ho
      subst he2
      have hg : (Engine.mk (e.nodes ++ [⟨d, NDArr.zeros d.shape, [], .noop⟩]) false).get
          e.nodes.length = ⟨d, NDArr.zeros d.shape, [], .noop⟩ :=
        get_append_self e _ false
      refine ⟨by rw [hg], by rw [hg], ?_⟩
      have hnp2 : NDArr.npAdd (({ e with track := true } : Engine).get a).data
          (({ e with track := true } : Engine).get b).data = some d := hnp
      refine ⟨Engine.mk (e.nodes ++ [⟨d, NDArr.zeros d.shape, [a, b],
          .addR a b e.nodes.length⟩]) true, ?_, ?_⟩
      · simp only [addOp, hnp2]
        rfl
      · rw [hg, get_append_self e (⟨d, NDArr.zeros d.shape, [a, b],
          .addR a b e.nodes.length⟩ : Node) true]
  · intro a b o e2 hop
    simp only [matmulOp] at hop
    cases hnp : NDArr.dot (e.get a).data (e.get b).data with
    | none => rw [hnp] at hop; cases hop
    | some d =>
      rw [hnp, h] at hop
      simp only [Bool.false_eq_true, if_false, Option.some.injEq, Prod.mk.injEq] at hop
      obtain ⟨ho, he2⟩ := hop
      subst ho
      subst he2
      have hg : (Engine.mk (e.nodes ++ [⟨d, NDArr.zeros d.shape, [], .noop⟩]) false).get
          e.nodes.length = ⟨d, NDArr.zeros d.shape, [], .noop⟩ :=
        get_append_self e _ false
      refine ⟨by rw [hg], by rw [hg], ?_⟩
      have hnp2 : NDArr.dot (({ e with track := true } : Engine).get a).data
          (({ e with track := true } : Engine).get b).data = some d := hnp
      refine ⟨Engine.mk (e.nodes ++ [⟨d, NDArr.zeros d.shape, [a, b],
          .matmulR a b e.nodes.length⟩]) true, ?_, ?_⟩
      · simp only [matmulOp, hnp2]
        rfl
      · rw [hg, get_append_self e (⟨d, NDArr.zeros d.shape, [a, b],
          .matmulR a b e.nodes.length⟩ : Node) true]
  · intro a b o e2 hop
    simp only [mulOp] at hop
    cases hnp : NDArr.npMul (e.get a).data (e.get b).data with
    | none => rw [hnp] at hop; cases hop
    | some d =>
      rw [hnp, h] at hop
      simp only [Bool.false_eq_true, if_false, Option.some.injEq, Prod.mk.injEq] at hop
      obtain ⟨ho, he2⟩ := hop
      subst ho
      subst he2
      have hg : (Engine.mk (e.nodes ++ [⟨d, NDArr.zeros d.shape, [], .noop⟩]) false).get
          e.nodes.length = ⟨d, NDArr.zeros d.shape, [], .noop⟩ :=
        get_append_self e _ false
      refine ⟨by rw [hg], by rw [hg], ?_⟩
      have hnp2 : NDArr.npMul (({ e with track := true } : Engine).get a).data
          (({ e with track := true } : Engine).get b).data = some d := hnp
      refine ⟨Engine.mk (e.nodes ++ [⟨d, NDArr.zeros d.shape, [a, b],
          .mulR a b e.nodes.length⟩]) true, ?_, ?_⟩
      · simp only [mulOp, hnp2]
        rfl
      · rw [hg, get_append_self e (⟨d, NDArr.zeros d.shape, [a, b],
          .mulR a b e.nodes.length⟩ : Node) true]
  · intro a
    have hg : (reluOp a e).2.get (reluOp a e).1
        = ⟨NDArr.smap (e.get a).data (fun x => if x < 0 then 0 else x),
           NDArr.zeros (NDArr.smap (e.get a).data (fun x => if x < 0 then 0 else x)).shape,
           if e.track then [a] else [], if e.track then .reluR a e.nodes.length else .noop⟩ :=
      get_append_self e _ e.track
    have hg2 : (reluOp a { e with track := true }).2.get (reluOp a { e with track := true }).1
        = ⟨NDArr.smap (e.get a).data (fun x => if x < 0 then 0 else x),
           NDArr.zeros (NDArr.smap (e.get a).data (fun x => if x < 0 then 0 else x)).shape,
           [a], .reluR a e.nodes.length⟩ :=
      get_append_self e _ true
    rw [hg, hg2, h]
    exact ⟨rfl, rfl, rfl⟩
  · intro a
    have hg : (transOp a e).2.get (transOp a e).1
        = ⟨NDArr.tT (e.get a).data, NDArr.zeros (NDArr.tT (e.get a).data).shape,
           if e.track then [a] else [], if e.track then .transR a e.nodes.length else .noop⟩ :=
      get_append_self e _ e.track
    have hg2 : (transOp a { e with track := true }).2.get (transOp a { e with track := true }).1
        = ⟨NDArr.tT (e.get a).data, NDArr.zeros (NDArr.tT (e.get a).data).shape,
           [a], .transR a e.nodes.length⟩ :=
      get_append_self e _ true
    rw [hg, hg2, h]
    exact ⟨rfl, rfl, rfl⟩

/-- Witness for the C7 theorem: a store with tracking disabled. -/
theorem untracked_ops_witness :
    ((Engine.mk cBase.nodes false).track = false)
    ∧ (∀ s : Engine, runRule s Rule.noop = .ok s)
    ∧ (∀ a b o e2, addOp a b (Engine.mk cBase.nodes false) = some (o, e2) →
        (e2.get o).prev = [] ∧ (e2.get o).rule = .noop
        ∧ ∃ e3, addOp a b { Engine.mk cBase.nodes false with track := true } = some (o, e3)
            ∧ (e3.get o).data = (e2.get o).data) :=
  ⟨rfl, (untracked_ops_forward_only (Engine.mk cBase.nodes false) rfl).1,
   (untracked_ops_forward_only (Engine.mk cBase.nodes false) rfl).2.1⟩

/-- C6: the tracking flag defaults to enabled, and the scoped toggle runs
its body on the overridden flag and restores the previous value (not a
fixed default) on the normal exit path and on the raising exit path, so
nested scopes restore correctly. -/
theorem track_toggle_scoped_restore :
    Engine.empty.track = true
    ∧ (∀ st : Bool, ∀ body : Engine → Except Engine Engine, ∀ e : Engine,
        (∀ e2, body { e with track := st } = .ok e2 →
          track_grad st body e = .ok { e2 with track := e.track })
        ∧ (∀ e2, body { e with track := st } = .error e2 →
          track_grad st body e = .error { e2 with track := e.track })
        ∧ (outEngine (track_grad st body e)).track = e.track)
    ∧ (∀ s1 s2 : Bool, ∀ body : Engine → Except Engine Engine, ∀ e e2 : Engine,
        track_grad s2 body { e with track := s1 } = .ok e2 → e2.track = s1) := by
  refine ⟨rfl, ?_, ?_⟩
  · intro st body e
    refine ⟨?_, ?_, ?_⟩
    · intro e2 hb
      simp only [track_grad, hb]
    · intro e2 hb
      simp only [track_grad, hb]
    · unfold track_grad
      cases hb : body { e with track := st } <;> simp [outEngine]
  · intro s1 s2 body e e2 hok
    unfold track_grad at hok
    cases hb : body { { e with track := s1 } with track := s2 } with
    | ok e3 =>
      rw [hb] at hok
      simp only [Except.ok.injEq] at hok
      rw [← hok]
    | error e3 =>
      rw [hb] at hok
      cases hok

/-- Witness for the C6 theorem: a raising body restores the default, and
an inner scope restores the outer scope's value true, not a default. -/
theorem track_toggle_witness :
    (outEngine (track_grad false errBody Engine.empty)).track = true
    ∧ track_grad false okBody { Engine.empty with track := true }
        = .ok { Engine.empty with track := true } := by
  constructor
  · exact (track_toggle_scoped_restore.2.1 false errBody Engine.empty).2.2
  · exact (track_toggle_scoped_restore.2.1 false okBody
      { Engine.empty with track := true }).1 { Engine.empty with track := false } rfl

lemma ruleOkB_writes (pv : List Nat) (c : Nat) (ρ : Rule) (h : ruleOkB pv c ρ = true) :
    ∀ q ∈ writes ρ, q ∈ pv := by
  cases ρ with
  | noop => intro q hq; cases hq
  | addR a b o =>
    simp only [ruleOkB, Bool.and_eq_true, beq_iff_eq] at h
    intro q hq
    rw [h.1]
    exact hq
  | matmulR a b o =>
    simp only [ruleOkB, Bool.and_eq_true, beq_iff_eq] at h
    intro q hq
    rw [h.1]
    exact hq
  | mulR a b o =>
    simp only [ruleOkB, Bool.and_eq_true, beq_iff_eq] at h
    intro q hq
    rw [h.1]
    exact hq
  | reluR a o =>
    simp only [ruleOkB, Bool.and_eq_true, beq_iff_eq] at h
    intro q hq
    rw [h.1]
    exact hq
  | transR a o =>
    simp only [ruleOkB, Bool.and_eq_true, beq_iff_eq] at h
    intro q hq
    rw [h.1]
    exact hq

lemma ruleOkB_nil_noop (c : Nat) (ρ : Rule) (h : ruleOkB [] c ρ = true) : ρ = .noop := by
  cases ρ with
  | noop => rfl
  | addR a b o => simp [ruleOkB] at h
  | matmulR a b o => simp [ruleOkB] at h
  | mulR a b o => simp [ruleOkB] at h
  | reluR a o => simp [ruleOkB] at h
  | transR a o => simp [ruleOkB] at h

/-- C2: for any well-formed graph and output node r, the backward executor
runs the stored closures over the reverse of the traversal sequence
`topo e r`; that sequence lists each node reachable from r over recorded
parent edges exactly once (no duplicates, identity-keyed by object id), and
lists every recorded parent of a listed node strictly before it — so in the
reversed execution order a node's closure is invoked exactly once and only
after the closures of all its recorded children, even in diamond graphs. -/
theorem backward_order_single_visit (e : Engine) (r : Nat)
    (hw : Wf e) (hr : r < e.nodes.length) :
    backward r e
      = runRules (e.setGrad r (NDArr.ones (e.get r).data.shape)) (topo e r).reverse
    ∧ (topo e r).Nodup
    ∧ (∀ y, y ∈ topo e r ↔ Reach e r y)
    ∧ (∀ x ∈ topo e r, ∀ p ∈ (e.get x).prev, p ∈ topo e r ∧ before (topo e r) p x) := by
  obtain ⟨hnd, hpb, hiff⟩ := topo_spec e r hw hr
  exact ⟨rfl, hnd, hiff, hpb⟩

/-- Witness for the C2 theorem on a concrete diamond graph. -/
theorem backward_order_witness :
    Wf diamondE ∧ 3 < diamondE.nodes.length
    ∧ (backward 3 diamondE
        = runRules (diamondE.setGrad 3 (NDArr.ones (diamondE.get 3).data.shape))
            (topo diamondE 3).reverse
      ∧ (topo diamondE 3).Nodup
      ∧ (∀ y, y ∈ topo diamondE 3 ↔ Reach diamondE 3 y)
      ∧ (∀ x ∈ topo diamondE 3, ∀ p ∈ (diamondE.get x).prev,
          p ∈ topo diamondE 3 ∧ before (topo diamondE 3) p x)) :=
  ⟨by decide, by decide, backward_order_single_visit diamondE 3 (by decide) (by decide)⟩

/-- C10: a backward call overwrites the root's gradient with all ones of
the root's data shape — replacing, not accumulating into, whatever the
gradient held, including values accumulated by an earlier pass — on every
outcome of the sweep; and on a root with no recorded parents the sweep
returns normally leaving every other node's state unchanged. -/
theorem backward_overwrites_root_seed (e : Engine) (r : Nat)
    (hw : Wf e) (hrw : RuleWf e) (hr : r < e.nodes.length) :
    ((outEngine (backward r e)).get r).grad = NDArr.ones (e.get r).data.shape
    ∧ ((e.get r).prev = [] →
        backward r e = .ok (e.setGrad r (NDArr.ones (e.get r).data.shape))
        ∧ ∀ i, i ≠ r → (outEngine (backward r e)).get i = e.get i) := by
  obtain ⟨hnd, hpb, hiff⟩ := topo_spec e r hw hr
  have hb : backward r e
      = runRules (e.setGrad r (NDArr.ones (e.get r).data.shape)) (topo e r).reverse := rfl
  have hframe : ∀ c ∈ (topo e r).reverse,
      r ∉ writes (((e.setGrad r (NDArr.ones (e.get r).data.shape)).get c).rule) := by
    intro c hc
    have hcr : Reach e r c := (hiff c).mp (List.mem_reverse.mp hc)
    have hcle : c ≤ r := reach_le e hw r c hcr
    have hclen : c < e.nodes.length := lt_of_le_of_lt hcle hr
    rw [(Engine.get_setGrad_fields e r _ c).2.2]
    intro hwr
    have hmem := ruleOkB_writes _ c _ (hrw c hclen) r hwr
    exact absurd (hw c r hmem) (not_lt.mpr hcle)
  have hfr := runRules_frame (topo e r).reverse
    (e.setGrad r (NDArr.ones (e.get r).data.shape)) r hframe
  constructor
  · rw [hb, hfr, Engine.get_setGrad_self e r _ hr]
  · intro hpr
    have hnoop : (e.get r).rule = .noop := by
      apply ruleOkB_nil_noop r
      rw [← hpr]
      exact hrw r hr
    obtain ⟨m, hm⟩ : ∃ m, e.nodes.length = m + 1 := ⟨e.nodes.length - 1, by omega⟩
    have htopo : topo e r = [r] := by
      unfold topo
      rw [hm]
      simp [dfs, hpr]
    have hrule2 : ((e.setGrad r (NDArr.ones (e.get r).data.shape)).get r).rule
        = Rule.noop := by
      rw [(Engine.get_setGrad_fields e r _ r).2.2]
      exact hnoop
    have hb2 : backward r e = .ok (e.setGrad r (NDArr.ones (e.get r).data.shape)) := by
      rw [hb, htopo]
      show runRules _ [r] = _
      simp only [runRules, hrule2, runRule]
    refine ⟨hb2, fun i hi => ?_⟩
    rw [hb2]
    show (e.setGrad r _).get i = e.get i
    exact Engine.get_setGrad_ne e r _ i hi

/-- Witness for the C10 theorem on a concrete parentless root. -/
theorem backward_overwrites_witness :
    Wf diamondE ∧ RuleWf diamondE ∧ 0 < diamondE.nodes.length
    ∧ (((outEngine (backward 0 diamondE)).get 0).grad
          = NDArr.ones (diamondE.get 0).data.shape
      ∧ ((diamondE.get 0).prev = [] →
          backward 0 diamondE
            = .ok (diamondE.setGrad 0 (NDArr.ones (diamondE.get 0).data.shape))
          ∧ ∀ i, i ≠ 0 → (outEngine (backward 0 diamondE)).get i = diamondE.get i)) :=
  ⟨by decide, by decide, by decide,
   backward_overwrites_root_seed diamondE 0 (by decide) (by decide) (by decide)⟩

unseal Rat.add Rat.mul Rat.inv Rat.sub in
/-- C1 evaluation at the failing input: on A = [[1,2],[3,4]] and
B = [[5,6],[7,8]], C = A - B is built as A + (B * (-1)) where -1 is a
coerced 0-dimensional leaf (node 2) and negation reuses the multiply rule
(node 3 carries mulR); the forward value is elementwise A - B.  The
backward executor does NOT complete: it raises (Except.error) when the
multiply rule's second line accumulates a (2,2) array in place into the
coerced scalar's 0-dimensional grad buffer.  Before the raise A.grad has
become all ones and B.grad all minus-ones. -/
theorem sub_backward_raises :
    c1Pair.1 = 4
    ∧ (c1Pair.2.get 4).data = ⟨[2, 2], [-4, -4, -4, -4]⟩
    ∧ (c1Pair.2.get 4).rule = .addR 0 3 4
    ∧ (c1Pair.2.get 3).rule = .mulR 1 2 3
    ∧ (c1Pair.2.get 2).data = ⟨[], [-1]⟩
    ∧ isOkE (backward 4 c1Pair.2) = false
    ∧ ((outEngine (backward 4 c1Pair.2)).get 0).grad = ⟨[2, 2], [1, 1, 1, 1]⟩
    ∧ ((outEngine (backward 4 c1Pair.2)).get 1).grad = ⟨[2, 2], [-1, -1, -1, -1]⟩ := by
  decide

unseal Rat.add Rat.mul Rat.inv Rat.sub in
/-- C5 counterexample: adding the raw scalar 3 to a (2,2) leaf coerces the
scalar into a 0-dimensional leaf (node 1); the backward pass completes, but
that leaf ends with a grad of shape (2,1) while its data has shape () — the
grad/data shape invariant is violated after this backward pass. -/
theorem grad_shape_invariant_cex :
    c5Pair.1 = 2
    ∧ isOkE (backward 2 c5Pair.2) = true
    ∧ ((outEngine (backward 2 c5Pair.2)).get 1).data.shape = []
    ∧ ((outEngine (backward 2 c5Pair.2)).get 1).grad.shape = [2, 1]
    ∧ ¬((outEngine (backward 2 c5Pair.2)).get 1).grad.shape
        = ((outEngine (backward 2 c5Pair.2)).get 1).data.shape := by
  decide

unseal Rat.add Rat.mul Rat.inv Rat.sub in
/-- C5 amended: immediately after construction every node — user-created,
coerced, or produced by any operation — has a grad buffer of exactly its
data's shape; and after the backward pass of the concrete equal-shape
two-dimensional add scenario the invariant still holds for every node.
(After a backward pass it does not hold in general: see the
counterexample with a coerced raw scalar operand.) -/
theorem grad_shape_at_construction :
    (∀ d ch e, (((mkTensor d ch e).2).get (mkTensor d ch e).1).grad.shape
        = (((mkTensor d ch e).2).get (mkTensor d ch e).1).data.shape)
    ∧ (∀ a b o e2 e, addOp a b e = some (o, e2) →
        (e2.get o).grad.shape = (e2.get o).data.shape)
    ∧ (∀ a b o e2 e, matmulOp a b e = some (o, e2) →
        (e2.get o).grad.shape = (e2.get o).data.shape)
    ∧ (∀ a b o e2 e, mulOp a b e = some (o, e2) →
        (e2.get o).grad.shape = (e2.get o).data.shape)
    ∧ (∀ a e, (((reluOp a e).2).get (reluOp a e).1).grad.shape
        = (((reluOp a e).2).get (reluOp a e).1).data.shape)
    ∧ (∀ a e, (((transOp a e).2).get (transOp a e).1).grad.shape
        = (((transOp a e).2).get (transOp a e).1).data.shape)
    ∧ (∀ i, i < 3 → ((outEngine (backward 2 c3Pair.2)).get i).grad.shape
        = ((outEngine (backward 2 c3Pair.2)).get i).data.shape) := by
  refine ⟨?_, ?_, ?_, ?_, ?_, ?_, by decide⟩
  · intro d ch e
    have hg : ((mkTensor d ch e).2).get (mkTensor d ch e).1
        = ⟨d, NDArr.zeros d.shape, ch, .noop⟩ := get_append_self e _ e.track
    rw [hg]
    rfl
  · intro a b o e2 e hop
    simp only [addOp] at hop
    cases hnp : NDArr.npAdd (e.get a).data (e.get b).data with
    | none => rw [hnp] at hop; cases hop
    | some d =>
      rw [hnp] at hop
      simp only [Option.some.injEq, Prod.mk.injEq] at hop
      obtain ⟨ho, he2⟩ := hop
      subst ho
      subst he2
      rw [get_append_self e _ e.track]
      rfl
  · intro a b o e2 e hop
    simp only [matmulOp] at hop
    cases hnp : NDArr.dot (e.get a).data (e.get b).data with
    | none => rw [hnp] at hop; cases hop
    | some d =>
      rw [hnp] at hop
      simp only [Option.some.injEq, Prod.mk.injEq] at hop
      obtain ⟨ho, he2⟩ := hop
      subst ho
      subst he2
      rw [get_append_self e _ e.track]
      rfl
  · intro a b o e2 e hop
    simp only [mulOp] at hop
    cases hnp : NDArr.npMul (e.get a).data (e.get b).data with
    | none => rw [hnp] at hop; cases hop
    | some d =>
      rw [hnp] at hop
      simp only [Option.some.injEq, Prod.mk.injEq] at hop
      obtain ⟨ho, he2⟩ := hop
      subst ho
      subst he2
      rw [get_append_self e _ e.track]
      rfl
  · intro a e
    have hg : (((reluOp a e).2).get (reluOp a e).1)
        = ⟨NDArr.smap (e.get a).data (fun x => if x < 0 then 0 else x),
           NDArr.zeros (NDArr.smap (e.get a).data (fun x => if x < 0 then 0 else x)).shape,
           if e.track then [a] else [],
           if e.track then .reluR a e.nodes.length else .noop⟩ := get_append_self e _ e.track
    rw [hg]
    rfl
  · intro a e
    have hg : (((transOp a e).2).get (transOp a e).1)
        = ⟨NDArr.tT (e.get a).data, NDArr.zeros (NDArr.tT (e.get a).data).shape,
           if e.track then [a] else [],
           if e.track then .transR a e.nodes.length else .noop⟩ := get_append_self e _ e.track
    rw [hg]
    rfl

/-- Witness for the amended C5 theorem at concrete inputs. -/
theorem grad_shape_at_construction_witness :
    ((((mkTensor cA [] Engine.empty).2).get (mkTensor cA [] Engine.empty).1).grad.shape
      = (((mkTensor cA [] Engine.empty).2).get (mkTensor cA [] Engine.empty).1).data.shape)
    ∧ (∀ a b o e2, addOp a b cBase = some (o, e2) →
        (e2.get o).grad.shape = (e2.get o).data.shape) :=
  ⟨grad_shape_at_construction.1 cA [] Engine.empty,
   fun a b o e2 h => grad_shape_at_construction.2.1 a b o e2 cBase h⟩

end MicroTorch
